import Mathlib

/-!
# Verification of the qp-mermaid state-machine pipeline

Shallow embedding of the qp-mermaid VS Code extension's core pipeline
(`qpMermaidParser.ts`, `mermaidPreprocessor.ts`, `stateMachineValidator.ts`)
and proofs about it.  TypeScript classes become pure functions; the mutable
`StateMachine` model becomes an inductive tree that each pass rewrites
functionally; JavaScript `Map`s used only through `has` become key lists;
JavaScript `Set`s become membership lists.
-/

namespace Qp

/-- `Transition` record from `types/stateMachine.ts`.  `action`/`guard` are
`Option` because the source leaves them `undefined` when absent. -/
structure Transition where
  event : String
  target : String
  action : Option String := none
  guard : Option String := none
  isInternal : Bool := false
deriving DecidableEq, Repr

/-- `State` record from `types/stateMachine.ts`: name, entry/exit action
lists, outgoing transitions, owned children, the designated-default-child
flag `isInitial`, and the optional initial transition of a composite state.
(The non-owning `parent` back-reference string is omitted: no embedded
operation reads it.) -/
inductive State where
  | mk (name : String) (entryActions : List String) (exitActions : List String)
       (transitions : List Transition) (children : List State)
       (isInitial : Bool) (initialTransition : Option Transition) : State
deriving Repr

def State.name : State → String
  | .mk n _ _ _ _ _ _ => n

def State.entryActions : State → List String
  | .mk _ e _ _ _ _ _ => e

def State.exitActions : State → List String
  | .mk _ _ x _ _ _ _ => x

def State.transitions : State → List Transition
  | .mk _ _ _ t _ _ _ => t

def State.children : State → List State
  | .mk _ _ _ _ c _ _ => c

def State.isInitial : State → Bool
  | .mk _ _ _ _ _ i _ => i

def State.initialTransition : State → Option Transition
  | .mk _ _ _ _ _ _ it => it

/-- `Event` record (the optional `parameters` list is omitted: nothing in the
embedded pipeline reads it). -/
structure EventDecl where
  name : String
  value : String
deriving DecidableEq, Repr

/-- `DataMember` record. -/
structure DataMember where
  name : String
  type : String
deriving DecidableEq, Repr

/-- `StateMachine` root aggregate from `types/stateMachine.ts`. -/
structure StateMachine where
  name : String
  type : String
  priority : Option Int := none
  stackSize : Option Int := none
  events : List EventDecl
  states : List State
  initialState : String
  dataMembers : List DataMember
deriving Repr

/-! ## Dotted paths

The resolver manipulates fully-qualified state paths as strings, splitting on
`'.'` (`path.split('.')`) and joining with `'.'` (`parts.join('.')`).  We work
on the split segment lists and convert at the boundary. -/

/-- JavaScript `str.split(c)` for a one-character separator, on the
character list: `"".split(c)` is `[""]`, separators at the ends produce
empty pieces. -/
def splitCharList (c : Char) : List Char → List (List Char)
  | [] => [[]]
  | x :: xs =>
    let r := splitCharList c xs
    if x = c then [] :: r
    else
      match r with
      | h :: t => (x :: h) :: t
      | [] => [[x]]

/-- `path.split('.')` of JavaScript. -/
def splitPath (s : String) : List String :=
  (splitCharList '.' s.data).map (fun cs => String.mk cs)

/-- `parts.join('.')` of JavaScript. -/
def joinPath : List String → String
  | [] => ""
  | [p] => p
  | p :: ps => p ++ "." ++ joinPath ps

/-! ## HierarchicalStateParser.findLCA / calculateTransitionSequence -/

/-- Loop body of `findLCA`: walk both segment lists in lockstep, extending the
common path while segments agree and breaking at the first mismatch. -/
def lcaSegs : List String → List String → List String
  | a :: as, b :: bs => if a = b then a :: lcaSegs as bs else []
  | _, _ => []

/-- `HierarchicalStateParser.findLCA`: the longest common dotted prefix of the
two paths (the source builds `commonPath` by appending the agreeing segments
with `'.'`, which is exactly the join of `lcaSegs`). -/
def findLCA (state1Path state2Path : String) : String :=
  joinPath (lcaSegs (splitPath state1Path) (splitPath state2Path))

/-- Exit-sequence loop of `calculateTransitionSequence`, on segment lists:
`while (currentPath && currentPath !== lca) { push; drop last segment }`.
(The empty string is falsy in JavaScript; it corresponds to the empty
segment list, which `parts.pop()` produces from a one-segment path.) -/
def exitSegsLoop (cur lca : List String) : List (List String) :=
  if cur = [] ∨ cur = lca then []
  else cur :: exitSegsLoop cur.dropLast lca
termination_by cur.length
decreasing_by
  rename_i h
  have hne : cur ≠ [] := fun hc => h (Or.inl hc)
  have hlen : 0 < cur.length := List.length_pos.mpr hne
  simp only [List.length_dropLast]
  omega

/-- Entry-sequence loop of `calculateTransitionSequence`: for
`i = lcaParts.length .. targetParts.length - 1` push
`targetParts.slice(0, i + 1)`. -/
def entrySegs (targetParts lcaParts : List String) : List (List String) :=
  (List.range (targetParts.length - lcaParts.length)).map
    (fun i => targetParts.take (lcaParts.length + 1 + i))

/-- `HierarchicalStateParser.calculateTransitionSequence`, returning
`(exitSequence, entrySequence, lca)`.  `lca ? lca.split('.') : []` is the
source's explicit mapping of the empty lca string to the empty segment
list. -/
def calculateTransitionSequence (fromPath toPath : String) :
    List String × List String × String :=
  let lca := findLCA fromPath toPath
  let lcaParts := if lca = "" then [] else splitPath lca
  let exitSequence := (exitSegsLoop (splitPath fromPath) lcaParts).map joinPath
  let entrySequence := (entrySegs (splitPath toPath) lcaParts).map joinPath
  (exitSequence, entrySequence, lca)

/-! ### Lemmas about the LCA and the exit/entry sequences -/

theorem lcaSegs_take_left : ∀ p q : List String,
    p.take (lcaSegs p q).length = lcaSegs p q
  | [], _ => by simp [lcaSegs]
  | _ :: _, [] => by simp [lcaSegs]
  | a :: as, b :: bs => by
    by_cases h : a = b
    · simp [lcaSegs, h, List.take_succ_cons, lcaSegs_take_left as bs]
    · simp [lcaSegs, h]

theorem lcaSegs_take_right : ∀ p q : List String,
    q.take (lcaSegs p q).length = lcaSegs p q
  | [], _ => by simp [lcaSegs]
  | _ :: _, [] => by simp [lcaSegs]
  | a :: as, b :: bs => by
    by_cases h : a = b
    · simp [lcaSegs, h, List.take_succ_cons, lcaSegs_take_right as bs]
    · simp [lcaSegs, h]

theorem lcaSegs_longest : ∀ (p q : List String) (n : Nat),
    p.take n = q.take n → n ≤ p.length → n ≤ (lcaSegs p q).length
  | [], _, n, _, hn => by
    have hn0 : n = 0 := by simpa using hn
    simp [hn0]
  | _ :: _, [], n, h, hn => by
    cases n with
    | zero => simp
    | succ m => simp at h
  | a :: as, b :: bs, n, h, hn => by
    cases n with
    | zero => simp
    | succ m =>
      simp only [List.take_succ_cons, List.cons.injEq] at h
      have hab : a = b := h.1
      simp only [lcaSegs, hab, if_true, List.length_cons]
      have := lcaSegs_longest as bs m h.2 (by simpa using hn)
      omega

theorem lcaSegs_length_le_left : ∀ p q : List String,
    (lcaSegs p q).length ≤ p.length
  | [], _ => by simp [lcaSegs]
  | _ :: _, [] => by simp [lcaSegs]
  | a :: as, b :: bs => by
    by_cases h : a = b
    · simp only [lcaSegs, h, if_true, List.length_cons]
      exact Nat.succ_le_succ (lcaSegs_length_le_left as bs)
    · simp [lcaSegs, h]

/-- The exit loop started at `cur` with an lca that is the length-`k` prefix
of `cur` produces exactly the chain of prefixes of `cur` of lengths
`cur.length, cur.length - 1, …, k + 1`, in that (innermost-first) order. -/
theorem exitSegsLoop_eq_chain (cur : List String) (k : Nat)
    (hk : k ≤ cur.length) :
    exitSegsLoop cur (cur.take k) =
      (List.range (cur.length - k)).map (fun i => cur.take (cur.length - i)) := by
  generalize hm : cur.length - k = m
  induction m generalizing cur k with
  | zero =>
    have hkl : k = cur.length := by omega
    subst hkl
    rw [List.take_length, exitSegsLoop]
    simp
  | succ m ih =>
    have hklt : k < cur.length := by omega
    have hne : cur ≠ [] := by
      intro hc
      subst hc
      simp at hklt
    have hcur : cur.take k ≠ cur := by
      intro hc
      have h2 := congrArg List.length hc
      rw [List.length_take] at h2
      omega
    rw [exitSegsLoop, if_neg (fun hor => hor.elim hne (fun hc => hcur hc.symm))]
    have hdk : k ≤ cur.dropLast.length := by
      rw [List.length_dropLast]
      omega
    have hlen : cur.dropLast.length - k = m := by
      rw [List.length_dropLast]
      omega
    have htake : cur.dropLast.take k = cur.take k := by
      rw [List.dropLast_eq_take, List.take_take]
      congr 1
      omega
    have hrec := ih cur.dropLast k hdk hlen
    rw [htake] at hrec
    rw [hrec, List.range_succ_eq_map]
    simp only [List.map_cons, Nat.sub_zero, List.take_length, List.map_map]
    congr 1
    apply List.map_congr_left
    intro i hi
    simp only [List.mem_range] at hi
    simp only [Function.comp_apply, List.dropLast_eq_take, List.take_take,
      List.length_take]
    congr 1
    omega

/-- The entry sequence is the reverse of the exit-style chain from the target
down to (but excluding) the lca: i.e. it lists the strict extensions of the
lca along the target's path, outermost first, ending with the target
itself. -/
theorem entrySegs_eq_reverse_chain (toP : List String) (k : Nat)
    (hk : k ≤ toP.length) :
    entrySegs toP (toP.take k) = (exitSegsLoop toP (toP.take k)).reverse := by
  rw [exitSegsLoop_eq_chain toP k hk, entrySegs]
  have hlk : (toP.take k).length = k := by
    rw [List.length_take]
    omega
  rw [hlk]
  apply List.ext_getElem
  · simp
  · intro i h1 h2
    rw [List.getElem_reverse]
    simp only [List.getElem_map, List.getElem_range, List.length_map,
      List.length_range]
    congr 1
    simp only [List.length_map, List.length_range] at h1 h2
    omega

theorem lcaSegs_length_le_right : ∀ p q : List String,
    (lcaSegs p q).length ≤ q.length
  | [], _ => by simp [lcaSegs]
  | _ :: _, [] => by simp [lcaSegs]
  | a :: as, b :: bs => by
    by_cases h : a = b
    · simp only [lcaSegs, h, if_true, List.length_cons]
      exact Nat.succ_le_succ (lcaSegs_length_le_right as bs)
    · simp [lcaSegs, h]

/-- **C3**: for every two fully-qualified dotted paths (as segment lists),
the resolver's LCA is their longest common prefix; the exit sequence is the
chain of prefixes of the source path from the source itself down to, but
excluding, the LCA (innermost first); the entry sequence lists the prefixes
of the target path from just below the LCA down to, and including, the
target (equivalently, it is the reverse of the corresponding exit-style
chain of the target); and concretely, for `On.Operand1` and `On.Operand2`
the LCA is `On`, the exit sequence `[On.Operand1]` and the entry sequence
`[On.Operand2]`. -/
theorem claim_C3_lca_sequences :
    (∀ p q : List String,
      p.take (lcaSegs p q).length = lcaSegs p q ∧
      q.take (lcaSegs p q).length = lcaSegs p q ∧
      (∀ n : Nat, n ≤ p.length → p.take n = q.take n →
        n ≤ (lcaSegs p q).length)) ∧
    (∀ p q : List String,
      exitSegsLoop p (lcaSegs p q) =
        (List.range (p.length - (lcaSegs p q).length)).map
          (fun i => p.take (p.length - i)) ∧
      entrySegs q (lcaSegs p q) = (exitSegsLoop q (lcaSegs p q)).reverse) ∧
    calculateTransitionSequence "On.Operand1" "On.Operand2" =
      (["On.Operand1"], ["On.Operand2"], "On") := by
  refine ⟨fun p q => ⟨lcaSegs_take_left p q, lcaSegs_take_right p q,
    fun n hn h => lcaSegs_longest p q n h hn⟩, fun p q => ⟨?_, ?_⟩, ?_⟩
  · have h := exitSegsLoop_eq_chain p (lcaSegs p q).length
      (lcaSegs_length_le_left p q)
    rw [lcaSegs_take_left] at h
    exact h
  · have h := entrySegs_eq_reverse_chain q (lcaSegs p q).length
      (lcaSegs_length_le_right p q)
    rw [lcaSegs_take_right] at h
    exact h
  · simp +decide [calculateTransitionSequence, exitSegsLoop, entrySegs, findLCA]

/-- Witness for `claim_C3_lca_sequences`: its longest-common-prefix clause
applied at a concrete input. -/
theorem claim_C3_lca_sequences_witness :
    1 ≤ (lcaSegs ["On", "Operand1"] ["On", "Operand2"]).length :=
  (claim_C3_lca_sequences.1 ["On", "Operand1"] ["On", "Operand2"]).2.2 1
    (by decide) (by decide)

/-! ## HierarchicalStateParser: buildStateMap, resolveTarget,
resolveTransitions, setupInitialTransitions -/

/-- JavaScript `s.startsWith(pre)`. -/
def jsStartsWith (s pre : String) : Bool := pre.data.isPrefixOf s.data

/-- Membership in the key list: the `Map.has` of the source.  (The resolver
reads `stateMap` only through `has`, so the embedding keeps the keys.) -/
def hasKey (keys : List String) (k : String) : Bool := keys.any (fun x => x = k)

/-- The fully-qualified dotted path of a state named `name` inside scope
`parentPath`: the source's ternary
`parentPath ? parentPath + '.' + name : name`. -/
def childPath (parentPath name : String) : String :=
  if parentPath = "" then name else parentPath ++ "." ++ name

/-- Adds a key to the key list if not already present (`Map.set` seen at the
key-set level: re-adding an existing key leaves the key set unchanged). -/
def addKey (acc : List String) (k : String) : List String :=
  if hasKey acc k then acc else acc ++ [k]

/-- `HierarchicalStateParser.buildStateMap`, as its key set: every state
contributes its fully-qualified dotted path, and also its bare name ("also
store by simple name for local resolution" — conditional in the source, but
at the key-set level `addKey` covers both the conditional and the
unconditional `set`). -/
def buildStateMapKeys : List State → String → List String → List String
  | [], _, acc => acc
  | .mk n _ _ _ ch _ _ :: ss, parentPath, acc =>
    let fullPath := childPath parentPath n
    let acc2 := addKey (addKey acc fullPath) n
    let acc3 := if ch.length > 0 then buildStateMapKeys ch fullPath acc2 else acc2
    buildStateMapKeys ss parentPath acc3

/-- The candidate path tried at scope depth `i` of `resolveTarget`'s
ancestor-scope walk: `pathParts.slice(0, i).join('.')` prefixed onto the
target (or the raw target when the base path is empty). -/
def scopeCandidate (target : String) (pathParts : List String) (i : Nat) :
    String :=
  let basePath := joinPath (pathParts.take i)
  if basePath = "" then target else basePath ++ "." ++ target

/-- The `for (let i = pathParts.length; i >= 0; i--)` ancestor-scope walk of
`resolveTarget`: try the candidate of each scope from the innermost outward,
returning the first one present in the map. -/
def tryScopes (keys : List String) (target : String) (pathParts : List String)
    (i : Nat) : Option String :=
  if hasKey keys (scopeCandidate target pathParts i)
  then some (scopeCandidate target pathParts i)
  else
    match i with
    | 0 => none
    | i' + 1 => tryScopes keys target pathParts i'

/-- `HierarchicalStateParser.resolveTarget`. -/
def resolveTarget (keys : List String) (target fromPath : String) : String :=
  if target = "[*]" ∨ jsStartsWith target "[H" then target
  else if hasKey keys target then target
  else
    let pathParts := splitPath fromPath
    match tryScopes keys target pathParts pathParts.length with
    | some candidatePath => candidatePath
    | none =>
      if pathParts.length > 1 then
        let parentPath := joinPath pathParts.dropLast
        let siblingPath := parentPath ++ "." ++ target
        if hasKey keys siblingPath then siblingPath else target
      else target

/-- Rewrites one transition's target, as the loop bodies of
`resolveTransitions` do. -/
def resolveTransition (keys : List String) (currentPath : String)
    (t : Transition) : Transition :=
  { t with target := resolveTarget keys t.target currentPath }

/-- `HierarchicalStateParser.resolveTransitions`. -/
def resolveTransitionsF (keys : List String) : List State → String → List State
  | [], _ => []
  | .mk n ea xa ts ch fi it :: ss, parentPath =>
    let currentPath := childPath parentPath n
    let ts1 := ts.map (resolveTransition keys currentPath)
    let it1 := it.map (resolveTransition keys currentPath)
    let ch1 := if ch.length > 0 then resolveTransitionsF keys ch currentPath else ch
    .mk n ea xa ts1 ch1 fi it1 :: resolveTransitionsF keys ss parentPath

/-- The target of the initial transition `setupInitialTransitions`
synthesizes for a composite state: the name of the first child flagged
`isInitial` (`children.find(child => child.isInitial)`), or of the first
declared child otherwise. -/
def defaultInitialChildTarget (ch : List State) : Option String :=
  match ch.find? (fun c => c.isInitial) with
  | some c => some c.name
  | none =>
    match ch with
    | c :: _ => some c.name
    | [] => none

mutual

/-- Loop body of `setupInitialTransitions` for one state: a composite state
without an initial transition gets one synthesized (event `@Q_INIT_SIG`) to
the designated or first child; then the children are processed. -/
def setupInitialState : State → State
  | .mk n ea xa ts ch fi it =>
    let it1 :=
      if ch.length > 0 ∧ it = none then
        (defaultInitialChildTarget ch).elim it
          (fun tgt => some { event := "@Q_INIT_SIG", target := tgt })
      else it
    let ch1 := if ch.length > 0 then setupInitialTransitionsF ch else ch
    .mk n ea xa ts ch1 fi it1

/-- `HierarchicalStateParser.setupInitialTransitions`. -/
def setupInitialTransitionsF : List State → List State
  | [] => []
  | s :: ss => setupInitialState s :: setupInitialTransitionsF ss

end

/-- `HierarchicalStateParser.parseHierarchicalStates`: build the lookup keys
from the machine's states, resolve all transition targets, then set up
initial transitions for composite states. -/
def parseHierarchicalStates (sm : StateMachine) : StateMachine :=
  let keys := buildStateMapKeys sm.states "" []
  { sm with
    states := setupInitialTransitionsF (resolveTransitionsF keys sm.states "") }

/-- Plain state constructor used by the concrete example machines. -/
def mkState (n : String) (ch : List State) (ts : List Transition) : State :=
  .mk n [] [] ts ch false none

/-- The tie-break scenario of the spec: a root state `A` containing a child
`B`, and a second root-level state `B`; `A.B` owns a transition whose raw
target is the bare name `B`. -/
def tieBreakStates : List State :=
  [mkState "A" [mkState "B" [] [{ event := "E", target := "B" }]] [],
   mkState "B" [] []]

/-- **C1 counterexample**: in the `A`-contains-`B` / root-`B` machine, the
resolver maps the bare target `B` from inside `A`'s scope to the raw/root
name `B`, not to the qualified `A.B` that the claim requires. -/
theorem claim_C1_counterexample :
    resolveTarget (buildStateMapKeys tieBreakStates "" []) "B" "A.B" = "B" ∧
    resolveTarget (buildStateMapKeys tieBreakStates "" []) "B" "A.B" ≠ "A.B" := by
  constructor
  · simp +decide [buildStateMapKeys, tieBreakStates, mkState, resolveTarget,
      hasKey, jsStartsWith]
  · intro h
    have h2 : resolveTarget (buildStateMapKeys tieBreakStates "" []) "B" "A.B"
        = "B" := by
      simp +decide [buildStateMapKeys, tieBreakStates, mkState, resolveTarget,
        hasKey, jsStartsWith]
    rw [h2] at h
    simp at h

/-- **C1 amended**: the resolver's absolute/bare-name lookup precedes the
ancestor-scope walk, and `buildStateMap` indexes every state by its bare
name as well; hence any raw target that is a key of the map (in particular
the bare name `B` when any state named `B` exists) is returned unchanged,
and an innermost-scope qualification such as `A.B` is never produced for
it. -/
theorem claim_C1_amended (keys : List String) (target fromPath : String)
    (h : hasKey keys target = true) :
    resolveTarget keys target fromPath = target := by
  unfold resolveTarget
  by_cases hs : target = "[*]" ∨ jsStartsWith target "[H"
  · simp [hs]
  · simp [hs, h]

/-- Witness for `claim_C1_amended` at the tie-break machine. -/
theorem claim_C1_amended_witness :
    resolveTarget ["A", "A.B", "B"] "B" "A.B" = "B" :=
  claim_C1_amended ["A", "A.B", "B"] "B" "A.B" (by decide)

/-- **C5**: a composite state (children `c0 :: rest`) lacking an explicit
initial transition gets a synthesized initial transition whose event is the
reserved `@Q_INIT_SIG` pseudo-event and whose target is the first child
flagged as designated default child, or the first declared child when no
child is flagged; in particular a composite with children `[X, Y, Z]` and no
flags gets an initial transition to `X`. -/
theorem claim_C5_default_initial_child :
    (∀ (n : String) (ea xa : List String) (ts : List Transition)
       (c0 : State) (rest : List State) (fi : Bool),
      (setupInitialState (.mk n ea xa ts (c0 :: rest) fi none)).initialTransition
        = some { event := "@Q_INIT_SIG",
                 target := (((c0 :: rest).find? (fun c => c.isInitial)).elim
                   c0.name State.name) }) ∧
    (setupInitialState (mkState "P"
        [mkState "X" [] [], mkState "Y" [] [], mkState "Z" [] []] [])
      ).initialTransition = some { event := "@Q_INIT_SIG", target := "X" } := by
  constructor
  · intro n ea xa ts c0 rest fi
    cases hf : (c0 :: rest).find? (fun c => c.isInitial) with
    | none =>
      simp [setupInitialState, defaultInitialChildTarget, hf,
        State.initialTransition]
    | some c =>
      simp [setupInitialState, defaultInitialChildTarget, hf,
        State.initialTransition]
  · simp +decide [setupInitialState, setupInitialTransitionsF,
      defaultInitialChildTarget, mkState, State.initialTransition,
      State.isInitial, State.name]

/-! ## Idempotence of the hierarchical resolution pass -/

theorem resolveTarget_of_hasKey (keys : List String) (t p : String)
    (h : hasKey keys t = true) : resolveTarget keys t p = t := by
  rw [resolveTarget]
  by_cases hs : t = "[*]" ∨ jsStartsWith t "[H"
  · simp [hs]
  · simp [hs, h]

theorem tryScopes_some_hasKey (keys : List String) (target : String)
    (pathParts : List String) :
    ∀ (i : Nat) (c : String), tryScopes keys target pathParts i = some c →
      hasKey keys c = true := by
  intro i
  induction i with
  | zero =>
    intro c h
    rw [tryScopes] at h
    by_cases hk : hasKey keys (scopeCandidate target pathParts 0) = true
    · rw [if_pos hk] at h
      cases h
      exact hk
    · rw [if_neg hk] at h
      cases h
  | succ i ih =>
    intro c h
    rw [tryScopes] at h
    by_cases hk : hasKey keys (scopeCandidate target pathParts (i + 1)) = true
    · rw [if_pos hk] at h
      cases h
      exact hk
    · rw [if_neg hk] at h
      exact ih c h

theorem resolveTarget_idem (keys : List String) (t p : String) :
    resolveTarget keys (resolveTarget keys t p) p = resolveTarget keys t p := by
  by_cases hs : t = "[*]" ∨ jsStartsWith t "[H"
  · have h1 : resolveTarget keys t p = t := by rw [resolveTarget]; simp [hs]
    rw [h1, h1]
  · by_cases hk : hasKey keys t = true
    · rw [resolveTarget_of_hasKey keys t p hk]
      exact resolveTarget_of_hasKey keys t p hk
    · cases htry : tryScopes keys t (splitPath p) (splitPath p).length with
      | some c =>
        have h1 : resolveTarget keys t p = c := by
          rw [resolveTarget]
          simp [hs, hk, htry]
        rw [h1]
        exact resolveTarget_of_hasKey keys c p
          (tryScopes_some_hasKey keys t (splitPath p) (splitPath p).length c htry)
      | none =>
        by_cases hl : (splitPath p).length > 1
        · by_cases hsib :
            hasKey keys (joinPath (splitPath p).dropLast ++ "." ++ t) = true
          · have h1 : resolveTarget keys t p
                = joinPath (splitPath p).dropLast ++ "." ++ t := by
              rw [resolveTarget]
              simp [hs, hk, htry, hl, hsib]
            rw [h1]
            exact resolveTarget_of_hasKey keys _ p hsib
          · have h1 : resolveTarget keys t p = t := by
              rw [resolveTarget]
              simp [hs, hk, htry, hl, hsib]
            rw [h1, h1]
        · have h1 : resolveTarget keys t p = t := by
            rw [resolveTarget]
            simp [hs, hk, htry, hl]
          rw [h1, h1]

theorem resolveTransition_idem (keys : List String) (p : String)
    (t : Transition) :
    resolveTransition keys p (resolveTransition keys p t)
      = resolveTransition keys p t := by
  simp [resolveTransition, resolveTarget_idem]

theorem map_resolveTransition_idem (keys : List String) (p : String)
    (l : List Transition) :
    (l.map (resolveTransition keys p)).map (resolveTransition keys p)
      = l.map (resolveTransition keys p) := by
  rw [List.map_map]
  apply List.map_congr_left
  intro t _
  exact resolveTransition_idem keys p t

theorem length_resolveTransitionsF (keys : List String) :
    ∀ (ss : List State) (p : String),
      (resolveTransitionsF keys ss p).length = ss.length
  | [], _ => by simp [resolveTransitionsF]
  | .mk n ea xa ts ch fi it :: ss, p => by
    rw [resolveTransitionsF]
    simp [length_resolveTransitionsF keys ss p]

theorem length_setupInitialTransitionsF :
    ∀ ss : List State, (setupInitialTransitionsF ss).length = ss.length
  | [] => by simp [setupInitialTransitionsF]
  | s :: ss => by
    rw [setupInitialTransitionsF]
    simp [length_setupInitialTransitionsF ss]

/-- All state names in a forest, in depth-first pre-order. -/
def forestNames : List State → List String
  | [] => []
  | .mk n _ _ _ ch _ _ :: ss => n :: (forestNames ch ++ forestNames ss)

theorem mem_name_forestNames : ∀ (ss : List State) (s : State),
    s ∈ ss → s.name ∈ forestNames ss
  | [], s, h => by simp at h
  | .mk n ea xa ts ch fi it :: ss, s, h => by
    rcases List.mem_cons.mp h with h1 | h1
    · subst h1
      simp [forestNames, State.name]
    · have := mem_name_forestNames ss s h1
      simp [forestNames, this]

theorem forestNames_resolveTransitionsF (keys : List String) :
    ∀ (ss : List State) (p : String),
      forestNames (resolveTransitionsF keys ss p) = forestNames ss
  | [], _ => by simp [resolveTransitionsF, forestNames]
  | .mk n ea xa ts ch fi it :: ss, p => by
    rw [resolveTransitionsF]
    by_cases hch : ch.length > 0
    · simp only [forestNames, hch, if_true,
        forestNames_resolveTransitionsF keys ch _,
        forestNames_resolveTransitionsF keys ss p]
    · simp only [forestNames, hch, if_false,
        forestNames_resolveTransitionsF keys ss p]

theorem forestNames_setupInitialTransitionsF :
    ∀ ss : List State, forestNames (setupInitialTransitionsF ss) = forestNames ss
  | [] => by simp [setupInitialTransitionsF, forestNames]
  | .mk n ea xa ts ch fi it :: ss => by
    rw [setupInitialTransitionsF]
    rw [setupInitialState]
    by_cases hch : ch.length > 0
    · simp only [forestNames, hch, if_true,
        forestNames_setupInitialTransitionsF ch,
        forestNames_setupInitialTransitionsF ss]
    · simp only [forestNames, hch, if_false,
        forestNames_setupInitialTransitionsF ss]

theorem hasKey_addKey_self (acc : List String) (k : String) :
    hasKey (addKey acc k) k = true := by
  rw [addKey]
  by_cases h : hasKey acc k = true
  · simp [h]
  · rw [if_neg h]
    simp [hasKey]

theorem hasKey_addKey_mono (acc : List String) (k x : String)
    (h : hasKey acc x = true) : hasKey (addKey acc k) x = true := by
  rw [addKey]
  by_cases hk : hasKey acc k = true
  · simp [hk, h]
  · simp only [hk, if_false]
    simp only [hasKey, List.any_append] at h ⊢
    simp [h]

theorem buildStateMapKeys_mono : ∀ (ss : List State) (p : String)
    (acc : List String) (k : String), hasKey acc k = true →
    hasKey (buildStateMapKeys ss p acc) k = true
  | [], _, _, _, h => by simpa [buildStateMapKeys] using h
  | .mk n ea xa ts ch fi it :: ss, p, acc, k, h => by
    rw [buildStateMapKeys]
    by_cases hch : ch.length > 0
    · simp only [hch, if_true]
      exact buildStateMapKeys_mono ss p _ k
        (buildStateMapKeys_mono ch _ _ k
          (hasKey_addKey_mono _ _ _ (hasKey_addKey_mono _ _ _ h)))
    · simp only [hch, if_false]
      exact buildStateMapKeys_mono ss p _ k
        (hasKey_addKey_mono _ _ _ (hasKey_addKey_mono _ _ _ h))

/-- Every bare state name anywhere in the forest ends up as a key of the
state map. -/
theorem buildStateMapKeys_names : ∀ (ss : List State) (p : String)
    (acc : List String) (x : String), x ∈ forestNames ss →
    hasKey (buildStateMapKeys ss p acc) x = true
  | [], _, _, _, hx => by simp [forestNames] at hx
  | .mk n ea xa ts ch fi it :: ss, p, acc, x, hx => by
    have hx3 : x = n ∨ x ∈ forestNames ch ∨ x ∈ forestNames ss := by
      simpa [forestNames] using hx
    rw [buildStateMapKeys]
    rcases hx3 with h1 | h1 | h1
    · subst h1
      by_cases hch : ch.length > 0
      · simp only [hch, if_true]
        exact buildStateMapKeys_mono ss p _ x
          (buildStateMapKeys_mono ch _ _ x (hasKey_addKey_self _ x))
      · simp only [hch, if_false]
        exact buildStateMapKeys_mono ss p _ x (hasKey_addKey_self _ x)
    · have hch : ch.length > 0 := by
        cases ch with
        | nil => simp [forestNames] at h1
        | cons c cs => simp
      simp only [hch, if_true]
      exact buildStateMapKeys_mono ss p _ x
        (buildStateMapKeys_names ch _ _ x h1)
    · by_cases hch : ch.length > 0
      · simp only [hch, if_true]
        exact buildStateMapKeys_names ss p _ x h1
      · simp only [hch, if_false]
        exact buildStateMapKeys_names ss p _ x h1

/-- Rewriting transition targets does not change the key set the resolver
builds (the pass preserves every state's name and tree position). -/
theorem buildStateMapKeys_resolveF (keys : List String) : ∀ (ss : List State)
    (pr p : String) (acc : List String),
    buildStateMapKeys (resolveTransitionsF keys ss pr) p acc
      = buildStateMapKeys ss p acc
  | [], _, _, _ => by simp [resolveTransitionsF, buildStateMapKeys]
  | .mk n ea xa ts ch fi it :: ss, pr, p, acc => by
    rw [resolveTransitionsF]
    rw [buildStateMapKeys, buildStateMapKeys]
    by_cases hch : ch.length > 0
    · have hlen : (resolveTransitionsF keys ch (childPath pr n)).length > 0 := by
        rw [length_resolveTransitionsF]
        exact hch
      simp only [hch, hlen, if_true]
      rw [buildStateMapKeys_resolveF keys ch _ _ _]
      exact buildStateMapKeys_resolveF keys ss pr p _
    · simp only [hch, if_false]
      exact buildStateMapKeys_resolveF keys ss pr p _

/-- Synthesizing initial transitions does not change the key set either. -/
theorem buildStateMapKeys_setupF : ∀ (ss : List State) (p : String)
    (acc : List String),
    buildStateMapKeys (setupInitialTransitionsF ss) p acc
      = buildStateMapKeys ss p acc
  | [], _, _ => by simp [setupInitialTransitionsF, buildStateMapKeys]
  | .mk n ea xa ts ch fi it :: ss, p, acc => by
    rw [setupInitialTransitionsF, setupInitialState]
    rw [buildStateMapKeys, buildStateMapKeys]
    by_cases hch : ch.length > 0
    · have hlen : (setupInitialTransitionsF ch).length > 0 := by
        rw [length_setupInitialTransitionsF]
        exact hch
      simp only [hch, hlen, if_true]
      rw [buildStateMapKeys_setupF ch _ _]
      exact buildStateMapKeys_setupF ss p _
    · simp only [hch, if_false]
      exact buildStateMapKeys_setupF ss p _

theorem optmap_resolveTransition_idem (keys : List String) (p : String) :
    ∀ o : Option Transition,
    (o.map (resolveTransition keys p)).map (resolveTransition keys p)
      = o.map (resolveTransition keys p)
  | none => rfl
  | some t => by simp [resolveTransition_idem]

/-- A forest whose transition targets (including initial-transition targets)
are all fixed points of `resolveTarget` relative to the scope path of their
owning state. -/
inductive AllFixed (keys : List String) : String → List State → Prop where
  | nil (p : String) : AllFixed keys p []
  | cons (p n : String) (ea xa : List String) (ts : List Transition)
      (ch : List State) (fi : Bool) (it : Option Transition) (ss : List State)
      (hts : ts.map (resolveTransition keys (childPath p n)) = ts)
      (hit : it.map (resolveTransition keys (childPath p n)) = it)
      (hch : AllFixed keys (childPath p n) ch)
      (hss : AllFixed keys p ss) :
      AllFixed keys p (State.mk n ea xa ts ch fi it :: ss)

/-- Resolution is the identity on a forest whose targets are already
fixed. -/
theorem resolveF_of_allFixed (keys : List String) (p : String)
    (ss : List State) (h : AllFixed keys p ss) :
    resolveTransitionsF keys ss p = ss := by
  induction h with
  | nil p => simp [resolveTransitionsF]
  | cons p n ea xa ts ch fi it ss hts hit hch hss ih_ch ih_ss =>
    rw [resolveTransitionsF]
    by_cases hch0 : ch.length > 0
    · simp only [hch0, if_true, hts, hit, ih_ch, ih_ss]
    · simp only [hch0, if_false, hts, hit, ih_ss]

/-- The output of the resolution pass is always fixed: re-resolving any
already-resolved target returns it unchanged. -/
theorem allFixed_resolveF (keys : List String) : ∀ (ss : List State)
    (p : String), AllFixed keys p (resolveTransitionsF keys ss p)
  | [], p => by
    rw [resolveTransitionsF]
    exact AllFixed.nil p
  | .mk n ea xa ts ch fi it :: ss, p => by
    rw [resolveTransitionsF]
    by_cases hch0 : ch.length > 0
    · simp only [hch0, if_true]
      exact AllFixed.cons p n ea xa _ _ fi _ _
        (map_resolveTransition_idem keys _ ts)
        (optmap_resolveTransition_idem keys _ it)
        (allFixed_resolveF keys ch _)
        (allFixed_resolveF keys ss p)
    · have hch1 : ch = [] := List.length_eq_zero.mp (by omega)
      subst hch1
      simp only [if_false, hch0]
      exact AllFixed.cons p n ea xa _ [] fi _ _
        (map_resolveTransition_idem keys _ ts)
        (optmap_resolveTransition_idem keys _ it)
        (AllFixed.nil _)
        (allFixed_resolveF keys ss p)

theorem defaultInitialChildTarget_ne_none (c0 : State) (rest : List State) :
    defaultInitialChildTarget (c0 :: rest) ≠ none := by
  cases hf : (c0 :: rest).find? (fun c => c.isInitial) with
  | some c => simp [defaultInitialChildTarget, hf]
  | none => simp [defaultInitialChildTarget, hf]

theorem defaultInitialChildTarget_mem (ch : List State) (tgt : String)
    (h : defaultInitialChildTarget ch = some tgt) : tgt ∈ forestNames ch := by
  cases hf : ch.find? (fun c => c.isInitial) with
  | some c =>
    simp only [defaultInitialChildTarget, hf, Option.some.injEq] at h
    exact h ▸ mem_name_forestNames ch c (List.mem_of_find?_eq_some hf)
  | none =>
    cases ch with
    | nil => simp [defaultInitialChildTarget] at h
    | cons c0 rest =>
      simp only [defaultInitialChildTarget, hf, Option.some.injEq] at h
      exact h ▸ mem_name_forestNames _ c0 (List.mem_cons_self c0 rest)

/-- Setting up initial transitions preserves fixedness, provided every state
name of the forest is a key of the map (the synthesized targets are bare
child names, which the resolver returns unchanged). -/
theorem allFixed_setupF (keys : List String) : ∀ (ss : List State)
    (p : String), AllFixed keys p ss →
    (∀ x ∈ forestNames ss, hasKey keys x = true) →
    AllFixed keys p (setupInitialTransitionsF ss)
  | [], p, _, _ => by
    rw [setupInitialTransitionsF]
    exact AllFixed.nil p
  | .mk n ea xa ts ch fi it :: ss, p, hfix, hnames => by
    have hn_ch : ∀ x ∈ forestNames ch, hasKey keys x = true := fun x hx =>
      hnames x (by simp [forestNames, hx])
    have hn_ss : ∀ x ∈ forestNames ss, hasKey keys x = true := fun x hx =>
      hnames x (by simp [forestNames, hx])
    cases hfix with
    | cons _ _ _ _ _ _ _ _ _ hts hit hch hss =>
      rw [setupInitialTransitionsF, setupInitialState]
      by_cases hch0 : ch.length > 0
      · obtain ⟨c0, rest, hch1⟩ : ∃ c0 rest, ch = c0 :: rest := by
          cases ch with
          | nil => simp at hch0
          | cons a b => exact ⟨a, b, rfl⟩
        subst hch1
        by_cases hit0 : it = none
        · cases hd : defaultInitialChildTarget (c0 :: rest) with
          | none => exact absurd hd (defaultInitialChildTarget_ne_none c0 rest)
          | some tgt =>
            have htgt : hasKey keys tgt = true :=
              hn_ch tgt (defaultInitialChildTarget_mem _ tgt hd)
            have hg : ((c0 :: rest).length > 0 ∧ it = none) := ⟨hch0, hit0⟩
            rw [if_pos hg, if_pos hch0, hit0]
            exact AllFixed.cons p n ea xa ts _ fi _ _ hts
              (by simp [Option.elim, resolveTransition,
                resolveTarget_of_hasKey keys tgt _ htgt])
              (allFixed_setupF keys (c0 :: rest) _ hch hn_ch)
              (allFixed_setupF keys ss p hss hn_ss)
        · have hg : ¬((c0 :: rest).length > 0 ∧ it = none) := fun hc =>
            hit0 hc.2
          rw [if_neg hg, if_pos hch0]
          exact AllFixed.cons p n ea xa ts _ fi _ _ hts hit
            (allFixed_setupF keys (c0 :: rest) _ hch hn_ch)
            (allFixed_setupF keys ss p hss hn_ss)
      · have hg : ¬(ch.length > 0 ∧ it = none) := fun hc => hch0 hc.1
        rw [if_neg hg, if_neg hch0]
        exact AllFixed.cons p n ea xa ts ch fi it _ hts hit hch
          (allFixed_setupF keys ss p hss hn_ss)

/-- Running the resolver's target-resolution pass on the output of a full
resolve-then-setup pass changes nothing. -/
theorem resolveF_after_setup (keys : List String) (ss : List State)
    (p : String) (hnames : ∀ x ∈ forestNames ss, hasKey keys x = true) :
    resolveTransitionsF keys
        (setupInitialTransitionsF (resolveTransitionsF keys ss p)) p
      = setupInitialTransitionsF (resolveTransitionsF keys ss p) := by
  apply resolveF_of_allFixed
  apply allFixed_setupF keys _ p (allFixed_resolveF keys ss p)
  intro x hx
  rw [forestNames_resolveTransitionsF] at hx
  exact hnames x hx

/-- Setting up initial transitions twice is the same as doing it once: the
first pass leaves no composite state without an initial transition. -/
theorem setupF_idem : ∀ ss : List State,
    setupInitialTransitionsF (setupInitialTransitionsF ss)
      = setupInitialTransitionsF ss
  | [] => by simp [setupInitialTransitionsF]
  | .mk n ea xa ts ch fi it :: ss => by
    have hss := setupF_idem ss
    have hch2 := setupF_idem ch
    rw [setupInitialTransitionsF]
    rw [setupInitialTransitionsF]
    rw [hss]
    congr 1
    cases ch with
    | nil => simp [setupInitialState]
    | cons c0 rest =>
      cases hit : it with
      | some t0 =>
        simp [setupInitialState, hch2, length_setupInitialTransitionsF]
      | none =>
        cases hd : defaultInitialChildTarget (c0 :: rest) with
        | none => exact absurd hd (defaultInitialChildTarget_ne_none c0 rest)
        | some tgt =>
          simp [setupInitialState, hd, hch2, length_setupInitialTransitionsF]

/-- **C4**: the hierarchical resolution pass is idempotent — running
`parseHierarchicalStates` on a `StateMachine` it has already resolved
changes nothing: no transition target, initial transition, or state is
rewritten, added, or removed by the second run. -/
theorem claim_C4_resolver_idempotent (sm : StateMachine) :
    parseHierarchicalStates (parseHierarchicalStates sm)
      = parseHierarchicalStates sm := by
  cases sm with
  | mk nm ty pr sk ev st ini dm =>
    have hnames : ∀ x ∈ forestNames st,
        hasKey (buildStateMapKeys st "" []) x = true :=
      fun x hx => buildStateMapKeys_names st "" [] x hx
    show StateMachine.mk nm ty pr sk ev
        (setupInitialTransitionsF (resolveTransitionsF
          (buildStateMapKeys
            (setupInitialTransitionsF (resolveTransitionsF
              (buildStateMapKeys st "" []) st "")) "" [])
          (setupInitialTransitionsF (resolveTransitionsF
            (buildStateMapKeys st "" []) st "")) "")) ini dm
      = StateMachine.mk nm ty pr sk ev
          (setupInitialTransitionsF (resolveTransitionsF
            (buildStateMapKeys st "" []) st "")) ini dm
    congr 1
    rw [buildStateMapKeys_setupF, buildStateMapKeys_resolveF]
    rw [resolveF_after_setup (buildStateMapKeys st "" []) st "" hnames]
    rw [setupF_idem]

/-! ## StateMachineValidator: data types and shared helpers -/

/-- `ValidationError.severity` values. -/
inductive Severity where
  | error
  | warning
  | info
deriving DecidableEq, Repr

/-- The optional `location` record of a `ValidationError`. -/
structure ErrLocation where
  state : Option String := none
  transition : Option String := none
  line : Option Nat := none
deriving DecidableEq, Repr

/-- `ValidationError` record of `stateMachineValidator.ts`. -/
structure ValidationError where
  severity : Severity
  message : String
  location : Option ErrLocation := none
deriving DecidableEq, Repr

/-- The ASCII apostrophe the validator's message templates put around
names. -/
def qc : String := String.singleton (Char.ofNat 39)

/-- `needle` occurs as a contiguous run inside `hay`. -/
def listInfix (needle : List Char) : List Char → Bool
  | [] => needle.isEmpty
  | x :: xs => needle.isPrefixOf (x :: xs) || listInfix needle xs

/-- JavaScript `s.includes(sub)`. -/
def jsIncludes (s sub : String) : Bool := listInfix sub.data s.data

/-- `StateMachineValidator.findState`: depth-first search by bare name,
visiting each state before its children and children before later
siblings. -/
def findState (name : String) : List State → Option State
  | [] => none
  | .mk n ea xa ts ch fi it :: ss =>
    if n = name then some (.mk n ea xa ts ch fi it)
    else
      match findState name ch with
      | some f => some f
      | none => findState name ss

/-- `StateMachineValidator.isSpecialTarget`. -/
def isSpecialTarget (target : String) : Bool :=
  target = "[*]" ∨ jsStartsWith target "[H" ∨ jsIncludes target "History"

/-- Number of occurrences of a character, as
`(s.match(/c/g) || []).length`. -/
def countChar (c : Char) (s : String) : Nat :=
  (s.data.filter (fun x => x = c)).length

/-- `StateMachineValidator.validateGuard`. -/
def validateGuard (guard statePath event : String) : List ValidationError :=
  let openParens := countChar '(' guard
  let closeParens := countChar ')' guard
  let parenErr : List ValidationError :=
    if openParens ≠ closeParens then
      [{ severity := .error,
         message := "Unbalanced parentheses in guard: " ++ guard,
         location := some { state := some statePath, transition := some event } }]
    else []
  let assignErr : List ValidationError :=
    if jsIncludes guard "=" ∧ ¬jsIncludes guard "==" ∧ ¬jsIncludes guard "<="
        ∧ ¬jsIncludes guard ">=" then
      [{ severity := .warning,
         message := "Possible assignment instead of comparison in guard: "
           ++ guard,
         location := some { state := some statePath, transition := some event } }]
    else []
  parenErr ++ assignErr

/-- The diagnostics `validateStateTransitions` emits for the transition at
index `i` of a state's transition list: missing-target check against the
current level's forest `states`, guard checks, and duplicate detection
(`t !== transition` is reference inequality, i.e. a different index). -/
def transitionErrsAt (states : List State) (statePath : String)
    (trs : List Transition) (i : Nat) (t : Transition) :
    List ValidationError :=
  let missing : List ValidationError :=
    if ¬isSpecialTarget t.target ∧ (findState t.target states).isNone then
      [{ severity := .error,
         message := "Transition target " ++ qc ++ t.target ++ qc
           ++ " does not exist",
         location := some { state := some statePath,
                            transition := some t.event } }]
    else []
  let guardErrs : List ValidationError :=
    match t.guard with
    | some g => if g ≠ "" then validateGuard g statePath t.event else []
    | none => []
  let dups := (trs.enum.filter
    (fun p => p.2.event = t.event ∧ p.2.guard = t.guard ∧ p.1 ≠ i)).length
  let dupErr : List ValidationError :=
    if dups > 0 then
      [{ severity := .error,
         message := "Duplicate transition for event " ++ qc ++ t.event ++ qc,
         location := some { state := some statePath } }]
    else []
  missing ++ guardErrs ++ dupErr

/-- All transition diagnostics of one state (the inner loop of
`validateStateTransitions`). -/
def stateOwnErrs (states : List State) (statePath : String)
    (trs : List Transition) : List ValidationError :=
  trs.enum.flatMap (fun p => transitionErrsAt states statePath trs p.1 p.2)

/-- The state loop of `StateMachineValidator.validateStateTransitions`:
`states` is the level's full sibling forest (the scope `findState` searches),
`iter` the part of it still to process; each state contributes its own
transition diagnostics followed by its children's (a recursive call whose
scope is the child list). -/
def vstLoop (states : List State) (parentPath : String) :
    List State → List ValidationError
  | [] => []
  | .mk n ea xa ts ch fi it :: rest =>
    stateOwnErrs states (childPath parentPath n) ts
      ++ (if ch.length > 0 then vstLoop ch (childPath parentPath n) ch else [])
      ++ vstLoop states parentPath rest

/-- `StateMachineValidator.validateStateTransitions`. -/
def validateStateTransitionsF (states : List State) (parentPath : String) :
    List ValidationError :=
  vstLoop states parentPath states

/-- `StateMachineValidator.collectStateNames`: returns the updated flat name
set and the duplicate-name diagnostics, in traversal order.  The JavaScript
`Set` is embedded as a list with add-if-absent. -/
def collectStateNames : List State → List String → String →
    (List String × List ValidationError)
  | [], names, _ => (names, [])
  | .mk n _ _ _ ch _ _ :: ss, names, pre =>
    let fullName := childPath pre n
    let dupErr : List ValidationError :=
      if hasKey names n then
        [{ severity := .error, message := "Duplicate state name: " ++ n,
           location := some { state := some fullName } }]
      else []
    let names1 := if hasKey names n then names else names ++ [n]
    let r2 := if ch.length > 0 then collectStateNames ch names1 fullName
      else (names1, [])
    let r3 := collectStateNames ss r2.1 pre
    (r3.1, dupErr ++ r2.2 ++ r3.2)

/-- `StateMachineValidator.traverseFromState`, with explicit fuel: the
source recursion terminates because every non-trivial call inserts a fresh
name into `visitedStates`; any fuel at least the number of distinct names
encountered computes the same set. -/
def traverseFromState (allStates : List State) :
    Nat → List String → String → List String
  | 0, visited, _ => visited
  | fuel + 1, visited, stateName =>
    if hasKey visited stateName then visited
    else
      let visited1 := visited ++ [stateName]
      match findState stateName allStates with
      | none => visited1
      | some s =>
        let visited2 := s.transitions.foldl
          (fun v t => if t.isInternal then v
            else traverseFromState allStates fuel v t.target) visited1
        match s.initialTransition with
        | some it0 => traverseFromState allStates fuel visited2 it0.target
        | none => visited2

/-- A fuel bound exceeding the number of names the traversal can ever
visit. -/
def forestWeight : List State → Nat
  | [] => 0
  | .mk _ _ _ ts ch _ _ :: ss => 2 + ts.length + forestWeight ch + forestWeight ss

/-- The `visitedStates` set after `checkReachability`'s traversal phase. -/
def reachVisited (sm : StateMachine) : List String :=
  if sm.initialState ≠ "" then
    traverseFromState sm.states (forestWeight sm.states + 1) [] sm.initialState
  else []

/-- `StateMachineValidator.checkUnreachableStates`. -/
def checkUnreachableStates (visited : List String) :
    List State → String → List ValidationError
  | [], _ => []
  | .mk n _ _ _ ch _ _ :: ss, parentPath =>
    let statePath := childPath parentPath n
    (if ¬hasKey visited n ∧ n ≠ "[*]" then
        [{ severity := .warning,
           message := "State " ++ qc ++ n ++ qc ++ " is unreachable",
           location := some { state := some statePath } }]
      else [])
      ++ (if ch.length > 0 then checkUnreachableStates visited ch statePath
          else [])
      ++ checkUnreachableStates visited ss parentPath

/-- `StateMachineValidator.checkReachability`: clear the visited set,
traverse forward from the initial state, then report unvisited states. -/
def checkReachability (sm : StateMachine) : List ValidationError :=
  checkUnreachableStates (reachVisited sm) sm.states ""

/-- All `(bare name, fully-qualified path)` pairs of a forest in the
validator's traversal order. -/
def forestStatesPaths : List State → String → List (String × String)
  | [], _ => []
  | .mk n _ _ _ ch _ _ :: ss, pp =>
    (n, childPath pp n) ::
      (forestStatesPaths ch (childPath pp n) ++ forestStatesPaths ss pp)

/-! ## Claims about the validator -/

theorem hasKey_iff_mem (l : List String) (x : String) :
    hasKey l x = true ↔ x ∈ l := by
  simp [hasKey]

/-- With pairwise-globally-distinct bare names, `collectStateNames` reports
nothing and returns the accumulated flat name set. -/
theorem collectStateNames_nodup : ∀ (ss : List State) (names : List String)
    (pre : String), (∀ x ∈ names, x ∉ forestNames ss) →
    (forestNames ss).Nodup →
    (collectStateNames ss names pre).2 = []
    ∧ (collectStateNames ss names pre).1 = names ++ forestNames ss
  | [], names, pre, _, _ => by simp [collectStateNames, forestNames]
  | .mk n ea xa ts ch fi it :: ss, names, pre, hdisj, hnd => by
    rw [forestNames] at hnd
    have hn_notin : n ∉ forestNames ch ++ forestNames ss :=
      (List.nodup_cons.mp hnd).1
    have hnd2 : (forestNames ch ++ forestNames ss).Nodup :=
      (List.nodup_cons.mp hnd).2
    have hndch : (forestNames ch).Nodup := (List.nodup_append.mp hnd2).1
    have hndss : (forestNames ss).Nodup := (List.nodup_append.mp hnd2).2.1
    have hdisj2 : ∀ x ∈ forestNames ch, x ∉ forestNames ss := fun x hx hx2 =>
      (List.nodup_append.mp hnd2).2.2 hx hx2
    have hkn : ¬hasKey names n = true := fun hk =>
      hdisj n ((hasKey_iff_mem names n).mp hk) (by simp [forestNames])
    have hdisj_ch : ∀ x ∈ names ++ [n], x ∉ forestNames ch := by
      intro x hx hxc
      rcases List.mem_append.mp hx with h1 | h1
      · exact hdisj x h1 (by simp [forestNames, hxc])
      · have hxn : x = n := by simpa using h1
        subst hxn
        exact hn_notin (List.mem_append.mpr (Or.inl hxc))
    have ih_ch := collectStateNames_nodup ch (names ++ [n]) (childPath pre n)
      hdisj_ch hndch
    have hdisj_ss : ∀ x ∈ (names ++ [n]) ++ forestNames ch,
        x ∉ forestNames ss := by
      intro x hx hxs
      rcases List.mem_append.mp hx with h1 | h1
      · rcases List.mem_append.mp h1 with h2 | h2
        · exact hdisj x h2 (by simp [forestNames, hxs])
        · have hxn : x = n := by simpa using h2
          subst hxn
          exact hn_notin (List.mem_append.mpr (Or.inr hxs))
      · exact hdisj2 x h1 hxs
    have ih_ss := collectStateNames_nodup ss ((names ++ [n]) ++ forestNames ch)
      pre hdisj_ss hndss
    by_cases hch : ch.length > 0
    · constructor
      · rw [collectStateNames]
        simp only [if_neg hkn, if_pos hch]
        rw [ih_ch.1, ih_ch.2, ih_ss.1]
        simp
      · rw [collectStateNames]
        simp only [if_neg hkn, if_pos hch]
        rw [ih_ch.2, ih_ss.2, forestNames]
        simp
    · have hch0 : ch = [] := List.length_eq_zero.mp (by omega)
      subst hch0
      have ih_ss2 := collectStateNames_nodup ss (names ++ [n]) pre
        (by simpa [forestNames] using hdisj_ss) hndss
      constructor
      · rw [collectStateNames]
        simp only [if_neg hkn, if_neg hch]
        rw [ih_ss2.1]
        simp
      · rw [collectStateNames]
        simp only [if_neg hkn, if_neg hch]
        rw [ih_ss2.2, forestNames]
        simp [forestNames]

/-- **C2 counterexample**: in the machine with root `A` containing child `B`
plus a root-level `B` — names unique within every sibling scope — the
validator's duplicate-name collection nonetheless reports
`Duplicate state name: B`. -/
theorem claim_C2_counterexample :
    (collectStateNames tieBreakStates [] "").2
      = [{ severity := .error, message := "Duplicate state name: B",
           location := some { state := some "B" } }] := by
  simp +decide [collectStateNames, tieBreakStates, mkState, hasKey, childPath]

/-- **C2 amended**: the duplicate-state-name check flattens all bare names
into one namespace: a name that repeats anywhere in the tree — even across
unrelated scopes — is reported as a duplicate, and a diagnostic-free run is
guaranteed exactly when bare names are globally pairwise distinct. -/
theorem claim_C2_amended (ss : List State) (pre : String)
    (hnd : (forestNames ss).Nodup) :
    (collectStateNames ss [] pre).2 = [] :=
  (collectStateNames_nodup ss [] pre (by simp) hnd).1

/-- Witness for `claim_C2_amended` at a concrete machine with globally
distinct names. -/
theorem claim_C2_amended_witness :
    (collectStateNames
      [mkState "A" [mkState "C" [] []] [], mkState "B" [] []] [] "").2 = [] :=
  claim_C2_amended [mkState "A" [mkState "C" [] []] [], mkState "B" [] []] ""
    (by simp +decide [forestNames, mkState])

theorem checkUnreachableStates_eq_filterMap (visited : List String) :
    ∀ (ss : List State) (pp : String),
    checkUnreachableStates visited ss pp
      = (forestStatesPaths ss pp).filterMap (fun np =>
          if ¬hasKey visited np.1 = true ∧ np.1 ≠ "[*]" then
            some { severity := .warning,
                   message := "State " ++ qc ++ np.1 ++ qc ++ " is unreachable",
                   location := some { state := some np.2 } }
          else none)
  | [], _ => by simp [checkUnreachableStates, forestStatesPaths]
  | .mk n ea xa ts ch fi it :: ss, pp => by
    have ich := checkUnreachableStates_eq_filterMap visited ch (childPath pp n)
    have iss := checkUnreachableStates_eq_filterMap visited ss pp
    rw [checkUnreachableStates, forestStatesPaths]
    by_cases hch : ch.length > 0
    · by_cases hc : hasKey visited n = false ∧ ¬n = "[*]"
      · simp [hch, hc, ich, iss, List.filterMap_cons, List.filterMap_append]
      · simp [hch, hc, ich, iss, List.filterMap_cons, List.filterMap_append]
    · have hch0 : ch = [] := List.length_eq_zero.mp (by omega)
      subst hch0
      by_cases hc : hasKey visited n = false ∧ ¬n = "[*]"
      · simp [hc, iss, List.filterMap_cons, List.filterMap_append,
          forestStatesPaths, checkUnreachableStates]
      · simp [hc, iss, List.filterMap_cons, List.filterMap_append,
          forestStatesPaths, checkUnreachableStates]

/-- **C7**: the reachability pass emits exactly one warning-severity
"unreachable" diagnostic for each state (located at its fully-qualified
path) that the forward traversal from the initial state — following
non-internal transitions and composite initial transitions — did not visit
and whose name is not the reserved marker `[*]`, and emits no unreachable
diagnostic for any visited state: its output is exactly the filter of the
pre-order state list by that condition. -/
theorem claim_C7_unreachable_exact (sm : StateMachine) :
    checkReachability sm
      = (forestStatesPaths sm.states "").filterMap (fun np =>
          if ¬hasKey (reachVisited sm) np.1 = true ∧ np.1 ≠ "[*]" then
            some { severity := .warning,
                   message := "State " ++ qc ++ np.1 ++ qc ++ " is unreachable",
                   location := some { state := some np.2 } }
          else none) :=
  checkUnreachableStates_eq_filterMap (reachVisited sm) sm.states ""

/-! ## Claim C6: unresolved targets are left raw and reported -/

/-- `s` is a state of the forest `ss` (whose scope path is `pp`), at
fully-qualified dotted path `path`. -/
inductive StateIn : List State → String → State → String → Prop where
  | here (ss : List State) (pp : String) (s : State) (hs : s ∈ ss) :
      StateIn ss pp s (childPath pp s.name)
  | deeper (ss : List State) (pp : String) (r : State) (hr : r ∈ ss)
      (s : State) (path : String)
      (h : StateIn r.children (childPath pp r.name) s path) :
      StateIn ss pp s path

theorem stateIn_ne_nil {ss : List State} {pp : String} {s : State}
    {path : String} (h : StateIn ss pp s path) : ss ≠ [] := by
  cases h with
  | here _ _ _ hs =>
    intro hc
    subst hc
    simp at hs
  | deeper _ _ r hr _ _ _ =>
    intro hc
    subst hc
    simp at hr

theorem children_names_subset : ∀ (ss : List State) (r : State), r ∈ ss →
    ∀ x ∈ forestNames r.children, x ∈ forestNames ss
  | [], r, hr => by simp at hr
  | .mk n ea xa ts ch fi it :: rest, r, hr => by
    intro x hx
    rcases List.mem_cons.mp hr with h1 | h1
    · subst h1
      simp only [State.children] at hx
      simp [forestNames, hx]
    · have := children_names_subset rest r h1 x hx
      simp [forestNames, this]

theorem findState_eq_none (name : String) : ∀ ss : List State,
    name ∉ forestNames ss → findState name ss = none
  | [], _ => by simp [findState]
  | .mk n ea xa ts ch fi it :: ss, hmem => by
    rw [findState]
    have hn : ¬n = name := by
      intro h
      exact hmem (by simp [forestNames, h])
    rw [if_neg hn]
    rw [findState_eq_none name ch (fun h => hmem (by simp [forestNames, h]))]
    exact findState_eq_none name ss (fun h => hmem (by simp [forestNames, h]))

theorem mem_enumFrom_of_mem {α : Type} (a : α) : ∀ (l : List α) (k : Nat),
    a ∈ l → ∃ i, (i, a) ∈ l.enumFrom k
  | [], _, h => by simp at h
  | x :: xs, k, h => by
    rcases List.mem_cons.mp h with h1 | h1
    · subst h1
      exact ⟨k, by simp [List.enumFrom]⟩
    · obtain ⟨i, hi⟩ := mem_enumFrom_of_mem a xs (k + 1) h1
      exact ⟨i, by simp [List.enumFrom, hi]⟩

theorem mem_enum_of_mem {α : Type} (a : α) (l : List α) (h : a ∈ l) :
    ∃ i, (i, a) ∈ l.enum :=
  mem_enumFrom_of_mem a l 0 h

theorem mem_vstLoop_own (states : List State) (pp : String)
    (e : ValidationError) : ∀ (iter : List State) (s : State), s ∈ iter →
    e ∈ stateOwnErrs states (childPath pp s.name) s.transitions →
    e ∈ vstLoop states pp iter
  | [], s, hs, _ => by simp at hs
  | .mk n ea xa ts ch fi it :: rest, s, hs, he => by
    rw [vstLoop]
    rcases List.mem_cons.mp hs with h1 | h1
    · subst h1
      simp only [State.name, State.transitions] at he
      simp [he]
    · have := mem_vstLoop_own states pp e rest s h1 he
      simp [this]

theorem mem_vstLoop_child (pp : String) (e : ValidationError) :
    ∀ (iter : List State) (states : List State) (r : State), r ∈ iter →
    r.children ≠ [] →
    e ∈ vstLoop r.children (childPath pp r.name) r.children →
    e ∈ vstLoop states pp iter
  | [], _, r, hr, _, _ => by simp at hr
  | .mk n ea xa ts ch fi it :: rest, states, r, hr, hch, he => by
    rw [vstLoop]
    rcases List.mem_cons.mp hr with h1 | h1
    · subst h1
      simp only [State.children] at hch
      have hlen : ch.length > 0 := by
        cases ch with
        | nil => simp at hch
        | cons a b => simp
      simp only [State.children, State.name] at he
      simp [hlen, he]
    · have := mem_vstLoop_child pp e rest states r h1 hch he
      simp [this]

/-- The missing-target diagnostic of `validateStateTransitions` fires for
any transition of any state of the forest whose target names no state of
the forest and is not a validator-special token. -/
theorem missing_target_reported (t : Transition)
    (hspec : isSpecialTarget t.target = false) :
    ∀ (ss : List State) (pp : String) (s : State) (path : String),
    StateIn ss pp s path → t ∈ s.transitions →
    t.target ∉ forestNames ss →
    ({ severity := .error,
       message := "Transition target " ++ qc ++ t.target ++ qc
         ++ " does not exist",
       location := some { state := some path, transition := some t.event } }
        : ValidationError)
      ∈ vstLoop ss pp ss := by
  intro ss pp s path hin
  induction hin with
  | here ss pp s hs =>
    intro ht hmem
    apply mem_vstLoop_own ss pp _ ss s hs
    obtain ⟨i, hi⟩ := mem_enum_of_mem t s.transitions ht
    rw [stateOwnErrs]
    apply List.mem_flatMap.mpr
    refine ⟨(i, t), hi, ?_⟩
    rw [transitionErrsAt]
    have hcond : ¬isSpecialTarget t.target = true
        ∧ (findState t.target ss).isNone = true := by
      constructor
      · simp [hspec]
      · rw [findState_eq_none t.target ss hmem]
        rfl
    simp only [if_pos hcond]
    simp
  | deeper ss pp r hr s path hsub ih =>
    intro ht hmem
    have hmem_ch : t.target ∉ forestNames r.children := fun hx =>
      hmem (children_names_subset ss r hr t.target hx)
    exact mem_vstLoop_child pp _ ss ss r hr (stateIn_ne_nil hsub)
      (ih ht hmem_ch)

/-- All of `resolveTarget`'s lookup rules fail for `target` from `fromPath`:
not a reserved pseudostate token, not a key of the map, every
ancestor-scope candidate absent, and the sibling candidate absent (when
tried). -/
def resolverMisses (keys : List String) (target fromPath : String) : Prop :=
  ¬(target = "[*]" ∨ jsStartsWith target "[H" = true)
  ∧ ¬hasKey keys target = true
  ∧ tryScopes keys target (splitPath fromPath) (splitPath fromPath).length
      = none
  ∧ ((splitPath fromPath).length > 1 →
      ¬hasKey keys (joinPath (splitPath fromPath).dropLast ++ "." ++ target)
        = true)

instance (keys : List String) (target fromPath : String) :
    Decidable (resolverMisses keys target fromPath) := by
  unfold resolverMisses
  infer_instance

theorem resolveTarget_of_misses (keys : List String) (target fromPath : String)
    (h : resolverMisses keys target fromPath) :
    resolveTarget keys target fromPath = target := by
  obtain ⟨h1, h2, h3, h4⟩ := h
  rw [resolveTarget, if_neg h1, if_neg h2]
  simp only [h3]
  by_cases h5 : (splitPath fromPath).length > 1
  · simp only [if_pos h5]
    rw [if_neg (h4 h5)]
  · simp only [if_neg h5]

/-- A state `S` owning a transition to the nonexistent target `Nowhere`. -/
def missingTargetState : State :=
  mkState "S" [] [{ event := "GO", target := "Nowhere" }]

/-- A machine forest consisting of `missingTargetState` alone. -/
def missingTargetStates : List State :=
  [missingTargetState]

/-- The machine wrapped around `missingTargetStates`. -/
def missingTargetMachine : StateMachine :=
  { name := "M", type := "QActive", events := [],
    states := missingTargetStates, initialState := "S", dataMembers := [] }

/-- **C6 amended**: for a transition whose raw target fails all of the
resolver's lookup rules, the resolver returns the target unchanged, and the
validator emits an error-severity missing-target diagnostic located at the
owning state's path and the transition's event — provided the target is
also not special to the validator (`[*]`, a `[H` prefix, or a string
containing `History`); targets containing `History` are silently exempt
from the check. -/
theorem claim_C6_unresolved_reported (sm : StateMachine) (s : State)
    (path : String) (t : Transition) (hin : StateIn sm.states "" s path)
    (ht : t ∈ s.transitions)
    (hmiss : resolverMisses (buildStateMapKeys sm.states "" []) t.target path)
    (hval : isSpecialTarget t.target = false) :
    resolveTarget (buildStateMapKeys sm.states "" []) t.target path = t.target
    ∧ ({ severity := .error,
         message := "Transition target " ++ qc ++ t.target ++ qc
           ++ " does not exist",
         location := some { state := some path, transition := some t.event } }
          : ValidationError)
        ∈ validateStateTransitionsF sm.states "" := by
  constructor
  · exact resolveTarget_of_misses _ _ _ hmiss
  · have hnot : t.target ∉ forestNames sm.states := fun hmem =>
      hmiss.2.1 (buildStateMapKeys_names sm.states "" [] t.target hmem)
    exact missing_target_reported t hval sm.states "" s path hin ht hnot

/-- Witness for `claim_C6_unresolved_reported` at a one-state machine with a
dangling target. -/
theorem claim_C6_unresolved_reported_witness :
    resolveTarget (buildStateMapKeys missingTargetMachine.states "" [])
        "Nowhere" (childPath "" missingTargetState.name) = "Nowhere"
    ∧ ({ severity := .error,
         message := "Transition target " ++ qc ++ "Nowhere" ++ qc
           ++ " does not exist",
         location := some { state := some (childPath "" missingTargetState.name),
                            transition := some "GO" } } : ValidationError)
        ∈ validateStateTransitionsF missingTargetMachine.states "" :=
  claim_C6_unresolved_reported missingTargetMachine missingTargetState
    (childPath "" missingTargetState.name)
    { event := "GO", target := "Nowhere" }
    (StateIn.here missingTargetMachine.states "" missingTargetState
      (by simp [missingTargetMachine, missingTargetStates]))
    (by simp [missingTargetState, mkState, State.transitions])
    (by simp +decide [resolverMisses, buildStateMapKeys, addKey, hasKey,
      mkState, missingTargetMachine, missingTargetStates, missingTargetState,
      childPath, jsStartsWith, tryScopes, scopeCandidate, splitPath,
      splitCharList, joinPath])
    (by simp +decide [isSpecialTarget, jsStartsWith, jsIncludes, listInfix])

/-- A machine with a single state `S` owning a transition to the
nonexistent target `LostHistory` (a name containing `History`). -/
def historyExStates : List State :=
  [mkState "S" [] [{ event := "GO", target := "LostHistory" }]]

/-- **C6 counterexample**: the target `LostHistory` names no state and fails
every resolver lookup rule, and the resolver leaves it unchanged — yet the
validator emits no diagnostic at all, because `isSpecialTarget` exempts any
target containing the substring `History`; the claim's promised
missing-target error never appears. -/
theorem claim_C6_counterexample :
    resolveTarget (buildStateMapKeys historyExStates "" []) "LostHistory" "S"
      = "LostHistory"
    ∧ (findState "LostHistory" historyExStates).isNone = true
    ∧ validateStateTransitionsF historyExStates "" = [] := by
  refine ⟨?_, ?_, ?_⟩
  · simp +decide [buildStateMapKeys, historyExStates, mkState, addKey, hasKey,
      resolveTarget, jsStartsWith, tryScopes, scopeCandidate, splitPath,
      splitCharList, joinPath, childPath]
  · simp +decide [findState, historyExStates, mkState]
  · simp +decide [validateStateTransitionsF, vstLoop, historyExStates, mkState,
      stateOwnErrs, transitionErrsAt, isSpecialTarget, findState, jsIncludes,
      listInfix, jsStartsWith, hasKey, childPath, validateGuard]

/-! ## MermaidPreprocessor -/

/-- JavaScript whitespace (the characters `\s` matches in the source's
regexes, restricted to ASCII). -/
def isSpaceChar (c : Char) : Bool :=
  c = ' ' ∨ c = '\t' ∨ c = '\n' ∨ c = '\r' ∨ c = '\x0b' ∨ c = '\x0c'

/-- JavaScript `\w` word characters. -/
def isWordChar (c : Char) : Bool :=
  ('a' ≤ c ∧ c ≤ 'z') ∨ ('A' ≤ c ∧ c ≤ 'Z') ∨ ('0' ≤ c ∧ c ≤ '9') ∨ c = '_'

/-- JavaScript `s.trim()`. -/
def jsTrim (s : String) : String :=
  String.mk (((s.data.dropWhile isSpaceChar).reverse.dropWhile
    isSpaceChar).reverse)

/-- JavaScript `s.substring(n)`. -/
def strDrop (s : String) (n : Nat) : String := String.mk (s.data.drop n)

/-- Values of the preprocessor's metadata map. -/
inductive MetaVal where
  | stateMeta (entry : List String) (exits : List String)
      (internal : List (String × Option String)) : MetaVal
  | historyMeta (historyType : String) : MetaVal
  | transMeta (source target event : String)
      (guard action : Option String) : MetaVal
deriving DecidableEq, Repr

/-- JavaScript `Map.set`: replace the value at an existing key in place, or
append a new entry. -/
def mapSet (m : List (String × MetaVal)) (k : String) (v : MetaVal) :
    List (String × MetaVal) :=
  if m.any (fun p => p.1 = k) then
    m.map (fun p => if p.1 = k then (k, v) else p)
  else m ++ [(k, v)]

/-- JavaScript `Map.get`. -/
def mapGet (m : List (String × MetaVal)) (k : String) : Option MetaVal :=
  (m.find? (fun p => p.1 = k)).map (fun p => p.2)

/-- `metadata.get(k).entry.push(a)`: succeeds only when the key holds a
state record with its `entry` array.  `none` is the TypeError the source
throws when the record at the key was overwritten by a transition or
history record (`.entry` is then `undefined`), or the key is absent. -/
def metaPushEntry (m : List (String × MetaVal)) (k a : String) :
    Option (List (String × MetaVal)) :=
  match mapGet m k with
  | some (MetaVal.stateMeta e x i) =>
    some (mapSet m k (MetaVal.stateMeta (e ++ [a]) x i))
  | _ => none

/-- `metadata.get(k).exit.push(a)`; `none` is the TypeError thrown when the
record at the key is not a state record. -/
def metaPushExit (m : List (String × MetaVal)) (k a : String) :
    Option (List (String × MetaVal)) :=
  match mapGet m k with
  | some (MetaVal.stateMeta e x i) =>
    some (mapSet m k (MetaVal.stateMeta e (x ++ [a]) i))
  | _ => none

/-- `metadata.get(k).internal.push({event, action})`; `none` is the
TypeError thrown when the record at the key is not a state record. -/
def metaPushInternal (m : List (String × MetaVal)) (k : String)
    (ia : String × Option String) : Option (List (String × MetaVal)) :=
  match mapGet m k with
  | some (MetaVal.stateMeta e x i) =>
    some (mapSet m k (MetaVal.stateMeta e x (i ++ [ia])))
  | _ => none

/-- `/^state\s+(\w+)\s*{$/` applied to the trimmed line: literal `state`, at
least one whitespace, a captured word run, optional whitespace, `{`, end of
input. -/
def stateOpenMatch (trimmed : String) : Option String :=
  let cs := trimmed.data
  if ("state".data).isPrefixOf cs then
    let rest := cs.drop 5
    let sp := rest.takeWhile isSpaceChar
    if sp.isEmpty then none
    else
      let rest1 := rest.dropWhile isSpaceChar
      let w := rest1.takeWhile isWordChar
      if w.isEmpty then none
      else
        let rest2 := (rest1.drop w.length).dropWhile isSpaceChar
        if rest2 = ['\x7b'] then some (String.mk w) else none
  else none

/-- `/:\s*(\w+)\s*(?:\/\s*(.+))?/` anchored at the head of `cs` (the
all-whitespace action corner follows the regex backtracking: `\s*` gives
one space back so that `(.+)` can match it). -/
def internalMatchAt (cs : List Char) : Option (String × Option String) :=
  match cs with
  | ':' :: rest =>
    let rest1 := rest.dropWhile isSpaceChar
    let w := rest1.takeWhile isWordChar
    if w.isEmpty then none
    else
      let rest2 := (rest1.drop w.length).dropWhile isSpaceChar
      match rest2 with
      | '/' :: rest3 =>
        let afterSp := rest3.dropWhile isSpaceChar
        if afterSp.isEmpty then
          if rest3.isEmpty then some (String.mk w, none)
          else some (String.mk w, some " ")
        else some (String.mk w, some (String.mk afterSp))
      | _ => some (String.mk w, none)
  | _ => none

/-- Leftmost match of an anchored matcher over all start positions (the
unanchored-regex search). -/
def scanMatch {β : Type} (f : List Char → Option β) : List Char → Option β
  | [] => f []
  | c :: cs =>
    match f (c :: cs) with
    | some r => some r
    | none => scanMatch f cs

/-- The preprocessor's internal-transition regex, unanchored. -/
def internalMatch (s : String) : Option (String × Option String) :=
  scanMatch internalMatchAt s.data

/-- `line.replace(/\[H\*?\]/, name)`: rewrite the first history marker. -/
def replaceHistory (name : String) : List Char → List Char
  | [] => []
  | c :: cs =>
    if ("[H]".data).isPrefixOf (c :: cs) then name.data ++ (c :: cs).drop 3
    else if ("[H*]".data).isPrefixOf (c :: cs) then name.data ++ (c :: cs).drop 4
    else c :: replaceHistory name cs

/-- The guard group `(?:\s*\[([^\]]+)\])?` of `processTransition`,
anchored: returns the capture and the remaining input on success. -/
def guardParse (cs : List Char) : Option (String × List Char) :=
  let cs1 := cs.dropWhile isSpaceChar
  match cs1 with
  | '[' :: rest =>
    let g := rest.takeWhile (fun c => ¬c = ']')
    if g.isEmpty then none
    else
      match rest.drop g.length with
      | ']' :: rest2 => some (String.mk g, rest2)
      | _ => none
  | _ => none

/-- The action group `(?:\s*\/\s*(.+))?$` of `processTransition`, anchored:
`(.+)` runs to the end of the line. -/
def actionParse (cs : List Char) : Option (String × List Char) :=
  let cs1 := cs.dropWhile isSpaceChar
  match cs1 with
  | '/' :: rest =>
    let a := rest.dropWhile isSpaceChar
    if a.isEmpty then
      if rest.isEmpty then none else some (" ", [])
    else some (String.mk a, [])
  | _ => none

/-- The optional guard/action tail of `processTransition`'s pattern with its
end-of-line anchor, trying the backtracking alternatives in JavaScript
order: guard+action, guard only, action only, neither. -/
def transTailMatch (r : List Char) : Option (Option String × Option String) :=
  match guardParse r with
  | some (g, r1) =>
    match actionParse r1 with
    | some (a, _) => some (some g, some a)
    | none =>
      if r1.isEmpty then some (some g, none)
      else
        match actionParse r with
        | some (a, _) => some (none, some a)
        | none => if r.isEmpty then some (none, none) else none
  | none =>
    match actionParse r with
    | some (a, _) => some (none, some a)
    | none => if r.isEmpty then some (none, none) else none

/-- `processTransition`'s anchored pattern
`^(\s*)(\w+)\s*-->\s*(\w+)\s*:\s*([^[/]+)(?:\s*\[([^\]]+)\])?(?:\s*\/\s*(.+))?$`,
returning `(indent, source, target, event, guard?, action?)`. -/
def transMatch (line : String) :
    Option (String × String × String × String × Option String × Option String) :=
  let cs := line.data
  let indent := cs.takeWhile isSpaceChar
  let r0 := cs.drop indent.length
  let src := r0.takeWhile isWordChar
  if src.isEmpty then none
  else
    let r1 := (r0.drop src.length).dropWhile isSpaceChar
    if ("-->".data).isPrefixOf r1 then
      let r2 := (r1.drop 3).dropWhile isSpaceChar
      let tgt := r2.takeWhile isWordChar
      if tgt.isEmpty then none
      else
        let r3 := (r2.drop tgt.length).dropWhile isSpaceChar
        match r3 with
        | ':' :: r4 =>
          let r5 := r4.dropWhile isSpaceChar
          let ev := r5.takeWhile (fun c => ¬(c = '[' ∨ c = '/'))
          if ev.isEmpty then none
          else
            match transTailMatch (r5.drop ev.length) with
            | some (g, a) =>
              some (String.mk indent, String.mk src, String.mk tgt,
                String.mk ev, g, a)
            | none => none
        | _ => none
    else none

/-- `MermaidPreprocessor.processTransition`: returns the simplified line and
the updated metadata map (returns the line unchanged when the pattern does
not match). -/
def processTransition (line : String) (metadata : List (String × MetaVal)) :
    String × List (String × MetaVal) :=
  match transMatch line with
  | none => (line, metadata)
  | some (indent, src, tgt, ev, g, a) =>
    let trimmedEvent := jsTrim ev
    let transitionKey := src ++ "_to_" ++ tgt ++ "_" ++ trimmedEvent
    let tmeta := MetaVal.transMeta src tgt trimmedEvent (g.map jsTrim)
      (a.map jsTrim)
    let metadata1 := mapSet metadata transitionKey tmeta
    let simplifiedLabel :=
      if g.isSome ∨ a.isSome then trimmedEvent ++ " ✓" else trimmedEvent
    (indent ++ src ++ " --> " ++ tgt ++ " : " ++ simplifiedLabel, metadata1)

/-- The preprocessor's per-call scratch state (`skipNextLine` of the source
is omitted: it is initialized `false` and never set). -/
structure PreState where
  inStateBlock : Bool
  currentState : Option String
  stateIndent : String
  stateCounter : Nat
  metadata : List (String × MetaVal)
deriving Repr

/-- The entry/exit/internal-transition handling that runs when the scan is
inside a state block with a current state.  Outer `none` means the line
fell through to the transition/history/pass-through handling; `some none`
is the TypeError escaping from the metadata push; `some (some r)` is the
handled line. -/
def stateBlockLine (st : PreState) (cs line trimmedLine : String) :
    Option (Option (PreState × String)) :=
  if jsStartsWith trimmedLine "entry:" then
    let action := jsTrim (strDrop trimmedLine 6)
    match metaPushEntry st.metadata cs action with
    | some m =>
      some (some ({ st with metadata := m },
        st.stateIndent ++ "    %% entry: " ++ action))
    | none => some none
  else if jsStartsWith trimmedLine "exit:" then
    let action := jsTrim (strDrop trimmedLine 5)
    match metaPushExit st.metadata cs action with
    | some m =>
      some (some ({ st with metadata := m },
        st.stateIndent ++ "    %% exit: " ++ action))
    | none => some none
  else if jsIncludes trimmedLine ":" = true ∧ ¬jsIncludes trimmedLine "-->" = true then
    match internalMatch trimmedLine with
    | some ia =>
      match metaPushInternal st.metadata cs ia with
      | some m =>
        some (some ({ st with metadata := m },
          st.stateIndent ++ "    %% internal: " ++ trimmedLine))
      | none => some none
    | none => none
  else none

/-- One iteration of `preprocess`'s line loop: the updated scratch state and
the single output line this input line contributes; `none` is a TypeError
escaping the iteration. -/
def preprocessLine (st : PreState) (line : String) :
    Option (PreState × String) :=
  let trimmedLine := jsTrim line
  match stateOpenMatch trimmedLine with
  | some name =>
    some ({ st with
        inStateBlock := true,
        currentState := some name,
        stateIndent := String.mk (line.data.takeWhile isSpaceChar),
        metadata := mapSet st.metadata name (MetaVal.stateMeta [] [] []) },
      line)
  | none =>
    if st.inStateBlock = true ∧ trimmedLine = "\x7d" then
      some ({ st with
          inStateBlock := false,
          currentState := none }, line)
    else
      let inner :=
        match st.currentState with
        | some cs =>
          if st.inStateBlock then stateBlockLine st cs line trimmedLine
          else none
        | none => none
      match inner with
      | some r => r
      | none =>
        if jsIncludes trimmedLine "-->" then
          let pr := processTransition line st.metadata
          some ({ st with metadata := pr.2 }, pr.1)
        else if jsIncludes trimmedLine "[H]" ∨ jsIncludes trimmedLine "[H*]" then
          let historyType :=
            if jsIncludes trimmedLine "[H*]" then "deep" else "shallow"
          let counter1 := st.stateCounter + 1
          let nm := "History_" ++ toString counter1
          some ({ st with
              stateCounter := counter1,
              metadata := mapSet st.metadata nm
                (MetaVal.historyMeta historyType) },
            String.mk (replaceHistory nm line.data))
        else some (st, line)

/-- The full line loop: final scratch state and output lines; `none` is a
TypeError aborting the loop (and `preprocess` with it). -/
def preprocessLinesGo : PreState → List String → Option (PreState × List String)
  | st, [] => some (st, [])
  | st, l :: ls =>
    match preprocessLine st l with
    | none => none
    | some r =>
      match preprocessLinesGo r.1 ls with
      | none => none
      | some rest => some (rest.1, r.2 :: rest.2)

/-- `content.split('\n')`. -/
def splitLines (content : String) : List String :=
  (splitCharList '\n' content.data).map (fun cs => String.mk cs)

/-- `lines.join('\n')`. -/
def joinLines : List String → String
  | [] => ""
  | [l] => l
  | l :: ls => l ++ "\n" ++ joinLines ls

/-- The cleared scratch state every `preprocess` call starts from. -/
def preInit : PreState :=
  { inStateBlock := false, currentState := none, stateIndent := "",
    stateCounter := 0, metadata := [] }

/-- The preprocessor's result: the renderable diagram and the metadata map
(the source serializes the map into a trailing `%%{qp-metadata: ...}%%`
comment; the map determines that comment). -/
structure PreprocessResult where
  mermaidDiagram : String
  metadataMap : List (String × MetaVal)
deriving Repr

/-- `MermaidPreprocessor.preprocess`; `none` is the TypeError that escapes
the call when an `entry:`/`exit:`/internal push runs on a metadata record
that a colliding transition key or history name has overwritten. -/
def preprocess (content : String) : Option PreprocessResult :=
  match preprocessLinesGo preInit (splitLines content) with
  | some r =>
    some { mermaidDiagram := joinLines r.2, metadataMap := r.1.metadata }
  | none => none

/-! ## Claims about the preprocessor -/

/-- A line the scan recognizes in scratch state `st` (the branch guards of
`preprocess`'s loop); anything else reaches the final pass-through. -/
def recognizedLine (st : PreState) (line : String) : Prop :=
  (stateOpenMatch (jsTrim line)).isSome = true
  ∨ (st.inStateBlock = true ∧ jsTrim line = "\x7d")
  ∨ (st.inStateBlock = true ∧ st.currentState.isSome = true
      ∧ (jsStartsWith (jsTrim line) "entry:" = true
        ∨ jsStartsWith (jsTrim line) "exit:" = true
        ∨ (jsIncludes (jsTrim line) ":" = true
            ∧ ¬jsIncludes (jsTrim line) "-->" = true
            ∧ (internalMatch (jsTrim line)).isSome = true)))
  ∨ jsIncludes (jsTrim line) "-->" = true
  ∨ jsIncludes (jsTrim line) "[H]" = true
  ∨ jsIncludes (jsTrim line) "[H*]" = true

instance (st : PreState) (line : String) :
    Decidable (recognizedLine st line) := by
  unfold recognizedLine
  infer_instance

theorem stateBlockLine_eq_none (st : PreState) (cs line trimmed : String)
    (hne : ¬jsStartsWith trimmed "entry:" = true)
    (hnx : ¬jsStartsWith trimmed "exit:" = true)
    (hni : ¬(jsIncludes trimmed ":" = true ∧ ¬jsIncludes trimmed "-->" = true
        ∧ (internalMatch trimmed).isSome = true)) :
    stateBlockLine st cs line trimmed = none := by
  rw [stateBlockLine, if_neg hne, if_neg hnx]
  by_cases hc : jsIncludes trimmed ":" = true ∧ ¬jsIncludes trimmed "-->" = true
  · rw [if_pos hc]
    cases him : internalMatch trimmed with
    | some r => exact absurd ⟨hc.1, hc.2, by simp [him]⟩ hni
    | none => rfl
  · rw [if_neg hc]

/-- An unrecognized line is emitted verbatim, without touching the scratch
state and without throwing. -/
theorem preprocessLine_unrecognized (st : PreState) (line : String)
    (h : ¬recognizedLine st line) : preprocessLine st line = some (st, line) := by
  rw [recognizedLine] at h
  simp only [not_or] at h
  obtain ⟨h1, h2, h3, h4, h5, h6⟩ := h
  have hso : stateOpenMatch (jsTrim line) = none := by
    cases hs : stateOpenMatch (jsTrim line) with
    | none => rfl
    | some v => exact absurd (by simp [hs]) h1
  rw [preprocessLine]
  simp only [hso]
  rw [if_neg h2]
  have hinner :
      (match st.currentState with
        | some cs =>
          if st.inStateBlock then stateBlockLine st cs line (jsTrim line)
          else none
        | none => none) = (none : Option (Option (PreState × String))) := by
    cases hcs : st.currentState with
    | none => rfl
    | some cs =>
      simp only
      cases hsb : st.inStateBlock with
      | false => simp
      | true =>
        simp only [if_true]
        apply stateBlockLine_eq_none
        · intro he
          exact h3 ⟨hsb, by simp [hcs], Or.inl he⟩
        · intro hx
          exact h3 ⟨hsb, by simp [hcs], Or.inr (Or.inl hx)⟩
        · intro hi
          exact h3 ⟨hsb, by simp [hcs], Or.inr (Or.inr hi)⟩
  simp only [hinner]
  rw [if_neg h4, if_neg (by simp [h5, h6])]

/-- The scratch state in force when the scan reaches line `i` (arbitrary
past a thrown iteration, which no theorem below reaches). -/
def stateAt (st : PreState) : List String → Nat → PreState
  | [], _ => st
  | _ :: _, 0 => st
  | l :: ls, i + 1 =>
    match preprocessLine st l with
    | some r => stateAt r.1 ls i
    | none => st

/-- When the loop returns normally it emits exactly one output line per
input line. -/
theorem preprocessLinesGo_length (st : PreState) : ∀ (lines : List String)
    (fin : PreState) (out : List String),
    preprocessLinesGo st lines = some (fin, out) → out.length = lines.length
  | [], fin, out, h => by
    rw [preprocessLinesGo] at h
    simp only [Option.some.injEq, Prod.mk.injEq] at h
    rw [← h.2]
  | l :: ls, fin, out, h => by
    rw [preprocessLinesGo] at h
    cases hl : preprocessLine st l with
    | none => simp [hl] at h
    | some r1 =>
      simp only [hl] at h
      cases hrest : preprocessLinesGo r1.1 ls with
      | none => simp [hrest] at h
      | some rest =>
        obtain ⟨fin1, out1⟩ := rest
        simp only [hrest, Option.some.injEq, Prod.mk.injEq] at h
        rw [← h.2]
        simp [preprocessLinesGo_length r1.1 ls fin1 out1 hrest]

/-- When the loop returns normally, an input line the scan does not
recognize comes out verbatim at its own position. -/
theorem preprocessLinesGo_passthrough (st : PreState) : ∀ (lines : List String)
    (fin : PreState) (out : List String) (i : Nat),
    preprocessLinesGo st lines = some (fin, out) →
    ¬recognizedLine (stateAt st lines i) (lines.getD i "") →
    out[i]? = lines[i]?
  | [], fin, out, i, h, _ => by
    rw [preprocessLinesGo] at h
    simp only [Option.some.injEq, Prod.mk.injEq] at h
    rw [← h.2]
  | l :: ls, fin, out, i, h, hunrec => by
    rw [preprocessLinesGo] at h
    cases hl : preprocessLine st l with
    | none => simp [hl] at h
    | some r1 =>
      simp only [hl] at h
      cases hrest : preprocessLinesGo r1.1 ls with
      | none => simp [hrest] at h
      | some rest =>
        obtain ⟨fin1, out1⟩ := rest
        simp only [hrest, Option.some.injEq, Prod.mk.injEq] at h
        rw [← h.2]
        cases i with
        | zero =>
          have hu : ¬recognizedLine st l := by simpa [stateAt] using hunrec
          have hline := preprocessLine_unrecognized st l hu
          rw [hl] at hline
          obtain h3 := Option.some.inj hline
          simp [h3]
        | succ i =>
          simp only [List.getElem?_cons_succ]
          apply preprocessLinesGo_passthrough r1.1 ls fin1 out1 i hrest
          have hst : stateAt st (l :: ls) (i + 1) = stateAt r1.1 ls i := by
            simp [stateAt, hl]
          simpa [hst] using hunrec

def exC8 : String := "state A_to_B_GO \x7b\nA --> B : GO\nentry: x\n\x7d"

/-- **C8** counterexample: `preprocess` does NOT return normally on every
input.  Opening a state block named `A_to_B_GO` stores a state record
under that key in the shared metadata map; the transition line
`A --> B : GO` computes the same key `A_to_B_GO` and `Map.set` overwrites
the record with a transition record; the following `entry: x` line then
runs `metadata.get('A_to_B_GO').entry.push(...)` where `.entry` is
`undefined` — the TypeError escapes `preprocess`. -/
theorem claim_C8_counterexample : preprocess exC8 = none := by
  simp +decide [exC8, preprocess, preInit, splitLines, splitCharList,
    preprocessLinesGo, preprocessLine, stateOpenMatch, stateBlockLine,
    metaPushEntry, metaPushExit, metaPushInternal, mapGet, mapSet,
    processTransition, transMatch, transTailMatch, guardParse, actionParse,
    internalMatch, internalMatchAt, scanMatch, jsTrim, jsStartsWith,
    jsIncludes, listInfix, strDrop, isSpaceChar, isWordChar, replaceHistory,
    joinLines]

/-- **C8** (amended): when `preprocess` returns normally — which it does
not always do, see the counterexample — it emits exactly one output line
per input line, and every input line matching none of the recognized
shapes (composite-state open/close, `entry:`/`exit:` and
internal-transition lines inside a state block, arrow-transition lines,
history markers) appears unchanged, at its original position, in the
returned renderable diagram. -/
theorem claim_C8_amended (content : String) (res : PreprocessResult)
    (h : preprocess content = some res) :
    ∃ fin out,
      preprocessLinesGo preInit (splitLines content) = some (fin, out)
      ∧ res.mermaidDiagram = joinLines out
      ∧ out.length = (splitLines content).length
      ∧ ∀ i : Nat,
          ¬recognizedLine (stateAt preInit (splitLines content) i)
            ((splitLines content).getD i "") →
          out[i]? = (splitLines content)[i]? := by
  rw [preprocess] at h
  cases hgo : preprocessLinesGo preInit (splitLines content) with
  | none => simp [hgo] at h
  | some r =>
    obtain ⟨fin, out⟩ := r
    refine ⟨fin, out, rfl, ?g1, ?g2, ?g3⟩
    · simp only [hgo] at h
      obtain h2 := Option.some.inj h
      rw [← h2]
    · exact preprocessLinesGo_length preInit (splitLines content) fin out hgo
    · exact fun i hi => preprocessLinesGo_passthrough preInit
        (splitLines content) fin out i hgo hi

/-- Witness for `claim_C8_amended` on an input that preprocesses
normally. -/
theorem claim_C8_amended_witness :
    preprocess "hello world"
        = some { mermaidDiagram := "hello world", metadataMap := [] }
    ∧ ∃ fin out,
        preprocessLinesGo preInit (splitLines "hello world") = some (fin, out)
        ∧ ({ mermaidDiagram := "hello world",
              metadataMap := [] } : PreprocessResult).mermaidDiagram
            = joinLines out
        ∧ out.length = (splitLines "hello world").length
        ∧ ∀ i : Nat,
            ¬recognizedLine (stateAt preInit (splitLines "hello world") i)
              ((splitLines "hello world").getD i "") →
            out[i]? = (splitLines "hello world")[i]? :=
  ⟨by rfl, claim_C8_amended "hello world" _ (by rfl)⟩

/-- **C10**: ordinary-transition metadata is keyed by source, target and
trimmed event only; feeding the scan two transition lines that agree on
those (but may differ in guard/action) returns normally and leaves exactly
one metadata entry under that key, holding only the later line's guard and
action. -/
theorem claim_C10_metadata_last_wins
    (l1 l2 ind1 ind2 s t e1 e2 : String) (g1 a1 g2 a2 : Option String)
    (hm1 : transMatch l1 = some (ind1, s, t, e1, g1, a1))
    (hm2 : transMatch l2 = some (ind2, s, t, e2, g2, a2))
    (he : jsTrim e1 = jsTrim e2)
    (hso1 : stateOpenMatch (jsTrim l1) = none)
    (hso2 : stateOpenMatch (jsTrim l2) = none)
    (harr1 : jsIncludes (jsTrim l1) "-->" = true)
    (harr2 : jsIncludes (jsTrim l2) "-->" = true) :
    (preprocessLinesGo preInit [l1, l2]).map (fun r => r.1.metadata)
      = some [(s ++ "_to_" ++ t ++ "_" ++ jsTrim e2,
          MetaVal.transMeta s t (jsTrim e2) (g2.map jsTrim)
            (a2.map jsTrim))] := by
  simp only [preprocessLinesGo, preprocessLine, preInit, hso1, hso2,
    harr1, harr2, if_true, processTransition, hm1, hm2, he, mapSet]
  simp

/-- Witness for `claim_C10_metadata_last_wins` on two concrete transition
lines sharing source, target and event but with different guards and
actions. -/
theorem claim_C10_metadata_last_wins_witness :
    (preprocessLinesGo preInit
        ["A --> B : GO [g1] / a1()", "A --> B : GO [g2] / a2()"]).map
        (fun r => r.1.metadata)
      = some [("A_to_B_GO",
          MetaVal.transMeta "A" "B" "GO" (some "g2") (some "a2()"))] := by
  have h := claim_C10_metadata_last_wins
    "A --> B : GO [g1] / a1()" "A --> B : GO [g2] / a2()"
    "" "" "A" "B" "GO " "GO " (some "g1") (some "a1()") (some "g2")
    (some "a2()") (by rfl) (by rfl) (by rfl) (by rfl) (by rfl)
    (by rfl) (by rfl)
  simpa using h

/-! ## QpMermaidParser (the structural parser) -/

/-- `/\[\*\]\s*-->\s*(\w+)(?:\s*:\s*(.+))?/` anchored at a position (the
second capture is read only for a no-op check in the source). -/
def initialMatchAt (cs : List Char) : Option String :=
  if ("[*]".data).isPrefixOf cs then
    let r1 := (cs.drop 3).dropWhile isSpaceChar
    if ("-->".data).isPrefixOf r1 then
      let r2 := (r1.drop 3).dropWhile isSpaceChar
      let w := r2.takeWhile isWordChar
      if w.isEmpty then none else some (String.mk w)
    else none
  else none

/-- The parser's initial-transition regex, unanchored. -/
def initialMatch (s : String) : Option String := scanMatch initialMatchAt s.data

/-- `/state\s+(\w+)\s*{/` anchored at a position (no end anchor). -/
def stateDeclMatchAt (cs : List Char) : Option String :=
  if ("state".data).isPrefixOf cs then
    let rest := cs.drop 5
    let sp := rest.takeWhile isSpaceChar
    if sp.isEmpty then none
    else
      let rest1 := rest.dropWhile isSpaceChar
      let w := rest1.takeWhile isWordChar
      if w.isEmpty then none
      else
        let rest2 := (rest1.drop w.length).dropWhile isSpaceChar
        match rest2 with
        | '\x7b' :: _ => some (String.mk w)
        | _ => none
  else none

/-- The parser's composite-state-open regex, unanchored. -/
def stateDeclMatch (s : String) : Option String :=
  scanMatch stateDeclMatchAt s.data

/-- The optional action group `(?:\s*\/\s*([^[]+))?` of the parser's
transition regex: returns the capture (if the group matched) and the
remaining input.  The all-whitespace corner follows the regex backtracking:
`\s*` gives one space back so `([^[]+)` can match it. -/
def pActionOpt (cs : List Char) : Option String × List Char :=
  let c1 := cs.dropWhile isSpaceChar
  match c1 with
  | '/' :: rest =>
    let sp := rest.takeWhile isSpaceChar
    let afterSp := rest.dropWhile isSpaceChar
    match afterSp with
    | [] => if sp.isEmpty then (none, cs) else (some " ", afterSp)
    | '[' :: _ => if sp.isEmpty then (none, cs) else (some " ", afterSp)
    | _ =>
      let a := afterSp.takeWhile (fun c => ¬c = '[')
      (some (String.mk a), afterSp.drop a.length)
  | _ => (none, cs)

/-- The optional guard group `(?:\s*\[([^\]]+)\])?` (no end anchor: anything
after the `]` is ignored). -/
def pGuardOpt (cs : List Char) : Option String :=
  let c1 := cs.dropWhile isSpaceChar
  match c1 with
  | '[' :: rest =>
    let g := rest.takeWhile (fun c => ¬c = ']')
    if g.isEmpty then none
    else
      match rest.drop g.length with
      | ']' :: _ => some (String.mk g)
      | _ => none
  | _ => none

/-- The optional event tail `(?:\s*:\s*(\w+)(action)?(guard)?)?` of the
parser's transition regex. -/
def pTransTailEvent (cs : List Char) :
    Option (String × Option String × Option String) :=
  let c1 := cs.dropWhile isSpaceChar
  match c1 with
  | ':' :: r =>
    let r1 := r.dropWhile isSpaceChar
    let ev := r1.takeWhile isWordChar
    if ev.isEmpty then none
    else
      let pr := pActionOpt (r1.drop ev.length)
      some (String.mk ev, pr.1, pGuardOpt pr.2)
  | _ => none

/-- `QpMermaidParser.parseTransition`'s pattern
`/(\w+)\s*-->\s*(\w+)(?:\s*:\s*(\w+)(?:\s*\/\s*([^[]+))?(?:\s*\[([^\]]+)\])?)?/`
anchored at a position: `(source, target, event?, action?, guard?)`. -/
def parseTransMatchAt (cs : List Char) :
    Option (String × String × Option String × Option String × Option String) :=
  let src := cs.takeWhile isWordChar
  if src.isEmpty then none
  else
    let r1 := (cs.drop src.length).dropWhile isSpaceChar
    if ("-->".data).isPrefixOf r1 then
      let r2 := (r1.drop 3).dropWhile isSpaceChar
      let tgt := r2.takeWhile isWordChar
      if tgt.isEmpty then none
      else
        match pTransTailEvent (r2.drop tgt.length) with
        | some (ev, act, gd) =>
          some (String.mk src, String.mk tgt, some ev, act, gd)
        | none => some (String.mk src, String.mk tgt, none, none, none)
    else none

/-- The parser's transition regex, unanchored. -/
def parseTransMatch (s : String) :
    Option (String × String × Option String × Option String × Option String) :=
  scanMatch parseTransMatchAt s.data

/-- `/:\s*(\w+)\s*\/\s*(.+)/` (the parser's internal-transition regex, with
a mandatory slash) anchored at a position. -/
def pInternalMatchAt (cs : List Char) : Option (String × String) :=
  match cs with
  | ':' :: rest =>
    let r1 := rest.dropWhile isSpaceChar
    let w := r1.takeWhile isWordChar
    if w.isEmpty then none
    else
      let r2 := (r1.drop w.length).dropWhile isSpaceChar
      match r2 with
      | '/' :: r3 =>
        let afterSp := r3.dropWhile isSpaceChar
        if afterSp.isEmpty then
          if r3.isEmpty then none else some (String.mk w, " ")
        else some (String.mk w, String.mk afterSp)
      | _ => none
  | _ => none

/-- The parser's internal-transition regex, unanchored. -/
def pInternalMatch (s : String) : Option (String × String) :=
  scanMatch pInternalMatchAt s.data

/-- Whether any state of the forest bears the given bare name
(`findState !== undefined`). -/
def containsNameF (n : String) : List State → Bool
  | [] => false
  | .mk m _ _ _ ch _ _ :: ss => m = n || containsNameF n ch || containsNameF n ss

def pushTransition (t : Transition) : State → State
  | .mk n ea xa ts ch fi it => .mk n ea xa (ts ++ [t]) ch fi it

def pushEntry (a : String) : State → State
  | .mk n ea xa ts ch fi it => .mk n (ea ++ [a]) xa ts ch fi it

def pushExit (a : String) : State → State
  | .mk n ea xa ts ch fi it => .mk n ea (xa ++ [a]) ts ch fi it

def pushChild (c : State) : State → State
  | .mk n ea xa ts ch fi it => .mk n ea xa ts (ch ++ [c]) fi it

/-- Mutation of the state object `findState` returns, as a pure rewrite of
the first state named `n` in the search's depth-first pre-order. -/
def updateNamed (n : String) (f : State → State) : List State → List State
  | [] => []
  | .mk m ea xa ts ch fi it :: ss =>
    if m = n then f (.mk m ea xa ts ch fi it) :: ss
    else if containsNameF n ch then
      .mk m ea xa ts (updateNamed n f ch) fi it :: ss
    else .mk m ea xa ts ch fi it :: updateNamed n f ss

/-- `QpMermaidParser.findOrCreateState` on the pure model: look the bare
name up in the whole tree; when absent, create a fresh empty state attached
as a child of the top-of-stack state, or at the root when the stack is
empty.  (The source also sets the new state's non-owning `parent` string,
which the embedded `State` omits.) -/
def findOrCreateState (states : List State) (stack : List String)
    (name : String) : List State :=
  if containsNameF name states then states
  else
    let newState : State := .mk name [] [] [] [] false none
    match stack with
    | top :: _ => updateNamed top (pushChild newState) states
    | [] => states ++ [newState]

/-- The parser's mutable fields: the machine being built, the stack of open
composite states (by name; the parser never creates two states with the
same bare name, so names identify the stacked objects), and the loop flags
of `parse`. -/
structure QpParseState where
  sm : StateMachine
  stateStack : List String
  inDiagram : Bool
  inMetadata : Bool
  metadataContent : String

/-- `QpMermaidParser.parseTransition`. -/
def parseTransitionLine (st : QpParseState) (line : String) : QpParseState :=
  match parseTransMatch line with
  | none => st
  | some (src, tgt, ev, act, gd) =>
    let states1 := findOrCreateState st.sm.states st.stateStack src
    let states2 := findOrCreateState states1 st.stateStack tgt
    let tr : Transition :=
      { event := ev.getD "", target := tgt, action := act.map jsTrim,
        guard := gd.map jsTrim }
    { st with
        sm := { st.sm with
          states := updateNamed src (pushTransition tr) states2 } }

/-- `QpMermaidParser.parseLine` (each branch returns, in source order). -/
def parseLine (st : QpParseState) (line : String) : QpParseState :=
  if jsIncludes line "[*]" = true ∧ jsIncludes line "-->" = true then
    match initialMatch line with
    | some tgt => { st with sm := { st.sm with initialState := tgt } }
    | none => st
  else if jsStartsWith line "state " = true ∧ jsIncludes line "\x7b" = true then
    match stateDeclMatch line with
    | some nm =>
      { st with
          sm := { st.sm with
            states := findOrCreateState st.sm.states st.stateStack nm },
          stateStack := nm :: st.stateStack }
    | none => st
  else if line = "\x7d" then
    { st with stateStack := st.stateStack.tail }
  else if jsStartsWith line "entry:" then
    match st.stateStack with
    | top :: _ =>
      let action := jsTrim (strDrop line 6)
      { st with
          sm := { st.sm with
            states := updateNamed top (pushEntry action) st.sm.states } }
    | [] => st
  else if jsStartsWith line "exit:" then
    match st.stateStack with
    | top :: _ =>
      let action := jsTrim (strDrop line 5)
      { st with
          sm := { st.sm with
            states := updateNamed top (pushExit action) st.sm.states } }
    | [] => st
  else if jsIncludes line "-->" then
    parseTransitionLine st line
  else if jsIncludes line ":" = true ∧ ¬jsIncludes line "-->" = true
      ∧ st.stateStack ≠ [] then
    match pInternalMatch line with
    | some ia =>
      match st.stateStack with
      | top :: _ =>
        let tr : Transition :=
          { event := ia.1, target := top, action := some ia.2,
            isInternal := true }
        { st with
            sm := { st.sm with
              states := updateNamed top (pushTransition tr) st.sm.states } }
      | [] => st
    | none => st
  else st

/-- JavaScript `parseInt` on a trimmed numeric prefix (`NaN` becomes
`none`). -/
def parseIntJs (s : String) : Option Int :=
  let cs := s.data.dropWhile isSpaceChar
  let sc : Int × List Char :=
    match cs with
    | '-' :: r => (-1, r)
    | '+' :: r => (1, r)
    | _ => (1, cs)
  let ds := sc.2.takeWhile (fun c => '0' ≤ c ∧ c ≤ '9')
  if ds.isEmpty then none
  else some (sc.1 * Int.ofNat (ds.foldl (fun a c => a * 10 + (c.toNat - 48)) 0))

/-- One line of `QpMermaidParser.parseMetadata`'s key-value fallback.  The
source first attempts `JSON.parse`; both the structured branch and this
fallback only set the machine's name/type/priority/stack-size/event/data
fields and leave `states`, `initialState` and the scope stack untouched,
which is all the theorems below rely on. -/
def parseMetadataLine (sm : StateMachine) (line : String) : StateMachine :=
  if jsIncludes line "Active Object:" then
    { sm with
        name := jsTrim (((splitCharList ':' line.data).map
          (fun cs => String.mk cs)).getD 1 "") }
  else if jsIncludes line "Priority:" then
    { sm with
        priority := parseIntJs (jsTrim (((splitCharList ':' line.data).map
          (fun cs => String.mk cs)).getD 1 "")) }
  else if jsIncludes line "Stack Size:" then
    { sm with
        stackSize := parseIntJs (jsTrim (((splitCharList ':' line.data).map
          (fun cs => String.mk cs)).getD 1 "")) }
  else sm

/-- `QpMermaidParser.parseMetadata` (fallback branch). -/
def parseMetadata (sm : StateMachine) (content : String) : StateMachine :=
  (splitLines content).foldl parseMetadataLine sm

/-- One iteration of `QpMermaidParser.parse`'s line loop. -/
def parseStep (st : QpParseState) (rawLine : String) : QpParseState :=
  let line := jsTrim rawLine
  if line = "" ∨ (jsStartsWith line "%%" = true
      ∧ ¬jsStartsWith line "%%\x7b" = true) then st
  else if jsStartsWith line "%%\x7b" then
    { st with inMetadata := true, metadataContent := "" }
  else if line = "\x7d%%" ∧ st.inMetadata = true then
    { st with
        inMetadata := false,
        sm := parseMetadata st.sm st.metadataContent }
  else if st.inMetadata then
    { st with metadataContent := st.metadataContent ++ line ++ "\n" }
  else if jsStartsWith line "stateDiagram-v2" = true
      ∨ jsStartsWith line "stateDiagram" = true then
    { st with inDiagram := true }
  else if st.inDiagram = false then st
  else parseLine st line

/-- Whether any root-level state owns a `@Q_INIT_SIG` transition targeting
the given child name (`setupHierarchy`'s scan over
`this.stateMachine.states`). -/
def rootsHaveInitFor (roots : List State) (childName : String) : Bool :=
  roots.any (fun s => s.transitions.any
    (fun t => t.target = childName ∧ t.event = "@Q_INIT_SIG"))

/-- The initial-child choice of `setupHierarchy` for a composite state. -/
def hierInitTarget (roots : List State) (ch : List State) : Option String :=
  match ch.find? (fun c => rootsHaveInitFor roots c.name) with
  | some c => some c.name
  | none =>
    match ch with
    | c :: _ => some c.name
    | [] => none

/-- The per-state pass of `QpMermaidParser.setupHierarchy` over the
flattened state list (every composite state gets its `initialTransition`
overwritten; transitions and tree shape are untouched). -/
def setupHierList (roots : List State) : List State → List State
  | [] => []
  | .mk n ea xa ts ch fi it :: ss =>
    let it1 :=
      if ch.length > 0 then
        (hierInitTarget roots ch).elim it
          (fun tgt => some { event := "@Q_INIT_SIG", target := tgt })
      else it
    .mk n ea xa ts (setupHierList roots ch) fi it1 :: setupHierList roots ss

/-- `QpMermaidParser.setupHierarchy`. -/
def setupHierarchy (sm : StateMachine) : StateMachine :=
  { sm with states := setupHierList sm.states sm.states }

/-- The parser's fresh machine (its constructor). -/
def qpInitSm : StateMachine :=
  { name := "StateMachine", type := "QActive", events := [], states := [],
    initialState := "", dataMembers := [] }

def qpInit : QpParseState :=
  { sm := qpInitSm, stateStack := [], inDiagram := false,
    inMetadata := false, metadataContent := "" }

/-- `QpMermaidParser.parse`. -/
def qpParse (content : String) : StateMachine :=
  setupHierarchy ((splitLines content).foldl parseStep qpInit).sm

/-! ## C9: the parser's targets-exist invariant -/

/-- All transitions owned by states of a forest, in depth-first
pre-order. -/
def allTransitionsF : List State → List Transition
  | [] => []
  | .mk _ _ _ ts ch _ _ :: ss => ts ++ (allTransitionsF ch ++ allTransitionsF ss)

theorem forestNames_append : ∀ (a b : List State),
    forestNames (a ++ b) = forestNames a ++ forestNames b
  | [], b => by simp [forestNames]
  | .mk n ea xa ts ch fi it :: a, b => by
    simp [forestNames, forestNames_append a b]

theorem allTransitionsF_append : ∀ (a b : List State),
    allTransitionsF (a ++ b) = allTransitionsF a ++ allTransitionsF b
  | [], b => by simp [allTransitionsF]
  | .mk n ea xa ts ch fi it :: a, b => by
    simp [allTransitionsF, allTransitionsF_append a b]

theorem mem_forestNames_cons (s : State) (ss : List State) (x : String) :
    x ∈ forestNames (s :: ss) ↔ x ∈ forestNames [s] ∨ x ∈ forestNames ss := by
  cases s with
  | mk n ea xa ts ch fi it =>
    simp [forestNames]
    tauto

theorem mem_allTransitionsF_cons (s : State) (ss : List State) (t : Transition) :
    t ∈ allTransitionsF (s :: ss)
      ↔ t ∈ allTransitionsF [s] ∨ t ∈ allTransitionsF ss := by
  cases s with
  | mk n ea xa ts ch fi it =>
    simp [allTransitionsF]
    tauto

theorem containsNameF_iff (n : String) : ∀ (ss : List State),
    containsNameF n ss = true ↔ n ∈ forestNames ss
  | [] => by simp [containsNameF, forestNames]
  | .mk m ea xa ts ch fi it :: ss => by
    simp only [containsNameF, forestNames, Bool.or_eq_true, decide_eq_true_eq,
      List.mem_cons, List.mem_append, containsNameF_iff n ch,
      containsNameF_iff n ss]
    constructor
    · rintro ((h | h) | h)
      · exact Or.inl h.symm
      · exact Or.inr (Or.inl h)
      · exact Or.inr (Or.inr h)
    · rintro (h | h | h)
      · exact Or.inl (Or.inl h.symm)
      · exact Or.inl (Or.inr h)
      · exact Or.inr h

/-- Rewriting a node never removes names: any name of the forest survives
`updateNamed`, provided the rewrite `f` keeps every name of the node it
touches. -/
theorem mem_forestNames_updateNamed (n : String) (f : State → State)
    (hf : ∀ (s : State) (x : String),
      x ∈ forestNames [s] → x ∈ forestNames [f s]) :
    ∀ (ss : List State) (x : String), x ∈ forestNames ss →
      x ∈ forestNames (updateNamed n f ss)
  | [], x, hx => by simp [forestNames] at hx
  | .mk m ea xa ts ch fi it :: ss, x, hx => by
    simp only [updateNamed]
    by_cases hm : m = n
    · rw [if_pos hm]
      rcases (mem_forestNames_cons _ ss x).mp hx with h | h
      · exact (mem_forestNames_cons _ ss x).mpr (Or.inl (hf _ x h))
      · exact (mem_forestNames_cons _ ss x).mpr (Or.inr h)
    · rw [if_neg hm]
      by_cases hc : containsNameF n ch = true
      · rw [if_pos hc]
        rcases (mem_forestNames_cons _ ss x).mp hx with h | h
        · have h2 : x = m ∨ x ∈ forestNames ch := by
            simpa [forestNames] using h
          refine (mem_forestNames_cons _ ss x).mpr (Or.inl ?g1)
          have h3 : x = m ∨ x ∈ forestNames (updateNamed n f ch) := by
            rcases h2 with h2 | h2
            · exact Or.inl h2
            · exact Or.inr (mem_forestNames_updateNamed n f hf ch x h2)
          simpa [forestNames] using h3
        · exact (mem_forestNames_cons _ ss x).mpr (Or.inr h)
      · rw [if_neg hc]
        rcases (mem_forestNames_cons _ ss x).mp hx with h | h
        · exact (mem_forestNames_cons _ _ x).mpr (Or.inl h)
        · exact (mem_forestNames_cons _ _ x).mpr
            (Or.inr (mem_forestNames_updateNamed n f hf ss x h))

/-- When the searched name is present, `updateNamed` really applies `f`
somewhere: anything `f` guarantees to put among the names of the node it
rewrites appears among the updated forest's names. -/
theorem mem_forestNames_updateNamed_self (n : String) (f : State → State)
    (y : String) (hy : ∀ s : State, y ∈ forestNames [f s]) :
    ∀ (ss : List State), containsNameF n ss = true →
      y ∈ forestNames (updateNamed n f ss)
  | [], h => by simp [containsNameF] at h
  | .mk m ea xa ts ch fi it :: ss, h => by
    simp only [updateNamed]
    by_cases hm : m = n
    · rw [if_pos hm]
      exact (mem_forestNames_cons _ ss y).mpr (Or.inl (hy _))
    · rw [if_neg hm]
      by_cases hc : containsNameF n ch = true
      · rw [if_pos hc]
        refine (mem_forestNames_cons _ ss y).mpr (Or.inl ?g2)
        have h3 : y = m ∨ y ∈ forestNames (updateNamed n f ch) :=
          Or.inr (mem_forestNames_updateNamed_self n f y hy ch hc)
        simpa [forestNames] using h3
      · rw [if_neg hc]
        have hss : containsNameF n ss = true := by
          simp only [containsNameF, Bool.or_eq_true, decide_eq_true_eq] at h
          rcases h with (h | h) | h
          · exact absurd h hm
          · exact absurd h hc
          · exact h
        exact (mem_forestNames_cons _ _ y).mpr
          (Or.inr (mem_forestNames_updateNamed_self n f y hy ss hss))

/-- `updateNamed` adds no transitions beyond what the rewrite `f` itself
adds. -/
theorem mem_allTransitionsF_updateNamed (n : String) (f : State → State)
    (Q : Transition → Prop)
    (hf : ∀ (s : State) (t : Transition), t ∈ allTransitionsF [f s] →
      t ∈ allTransitionsF [s] ∨ Q t) :
    ∀ (ss : List State) (t : Transition),
      t ∈ allTransitionsF (updateNamed n f ss) →
        t ∈ allTransitionsF ss ∨ Q t
  | [], t, ht => by simp [updateNamed, allTransitionsF] at ht
  | .mk m ea xa ts ch fi it :: ss, t, ht => by
    simp only [updateNamed] at ht
    by_cases hm : m = n
    · rw [if_pos hm] at ht
      rcases (mem_allTransitionsF_cons _ ss t).mp ht with h | h
      · rcases hf _ t h with h2 | h2
        · exact Or.inl ((mem_allTransitionsF_cons _ ss t).mpr (Or.inl h2))
        · exact Or.inr h2
      · exact Or.inl ((mem_allTransitionsF_cons _ ss t).mpr (Or.inr h))
    · rw [if_neg hm] at ht
      by_cases hc : containsNameF n ch = true
      · rw [if_pos hc] at ht
        rcases (mem_allTransitionsF_cons _ ss t).mp ht with h | h
        · have h2 : t ∈ ts ∨ t ∈ allTransitionsF (updateNamed n f ch) := by
            simpa [allTransitionsF] using h
          rcases h2 with h2 | h2
          · refine Or.inl ((mem_allTransitionsF_cons _ ss t).mpr (Or.inl ?g3))
            simp [allTransitionsF]
            exact Or.inl h2
          · rcases mem_allTransitionsF_updateNamed n f Q hf ch t h2 with h3 | h3
            · refine Or.inl ((mem_allTransitionsF_cons _ ss t).mpr (Or.inl ?g4))
              simp [allTransitionsF]
              exact Or.inr h3
            · exact Or.inr h3
        · exact Or.inl ((mem_allTransitionsF_cons _ ss t).mpr (Or.inr h))
      · rw [if_neg hc] at ht
        rcases (mem_allTransitionsF_cons _ (updateNamed n f ss) t).mp ht with h | h
        · exact Or.inl ((mem_allTransitionsF_cons _ ss t).mpr (Or.inl h))
        · rcases mem_allTransitionsF_updateNamed n f Q hf ss t h with h2 | h2
          · exact Or.inl ((mem_allTransitionsF_cons _ ss t).mpr (Or.inr h2))
          · exact Or.inr h2

theorem forestNames_pushTransition (tr : Transition) (s : State) :
    forestNames [pushTransition tr s] = forestNames [s] := by
  cases s with
  | mk n ea xa ts ch fi it => simp [pushTransition, forestNames]

theorem forestNames_pushEntry (a : String) (s : State) :
    forestNames [pushEntry a s] = forestNames [s] := by
  cases s with
  | mk n ea xa ts ch fi it => simp [pushEntry, forestNames]

theorem forestNames_pushExit (a : String) (s : State) :
    forestNames [pushExit a s] = forestNames [s] := by
  cases s with
  | mk n ea xa ts ch fi it => simp [pushExit, forestNames]

theorem allTransitionsF_pushEntry (a : String) (s : State) :
    allTransitionsF [pushEntry a s] = allTransitionsF [s] := by
  cases s with
  | mk n ea xa ts ch fi it => simp [pushEntry, allTransitionsF]

theorem allTransitionsF_pushExit (a : String) (s : State) :
    allTransitionsF [pushExit a s] = allTransitionsF [s] := by
  cases s with
  | mk n ea xa ts ch fi it => simp [pushExit, allTransitionsF]

theorem mem_allTransitionsF_pushTransition (tr : Transition) (s : State)
    (t : Transition) (ht : t ∈ allTransitionsF [pushTransition tr s]) :
    t ∈ allTransitionsF [s] ∨ t = tr := by
  cases s with
  | mk n ea xa ts ch fi it =>
    simp [pushTransition, allTransitionsF] at ht ⊢
    tauto

theorem mem_forestNames_pushChild (c : State) (s : State) (x : String)
    (hx : x ∈ forestNames [s]) : x ∈ forestNames [pushChild c s] := by
  cases s with
  | mk n ea xa ts ch fi it =>
    simp [pushChild, forestNames, forestNames_append] at hx ⊢
    tauto

theorem name_mem_forestNames_pushChild (c : State) (s : State) :
    c.name ∈ forestNames [pushChild c s] := by
  cases s with
  | mk n ea xa ts ch fi it =>
    cases c with
    | mk cn cea cxa cts cch cfi cit =>
      simp [pushChild, forestNames, forestNames_append, State.name]

theorem mem_allTransitionsF_pushChild_new (name : String) (s : State)
    (t : Transition)
    (ht : t ∈ allTransitionsF [pushChild (State.mk name [] [] [] [] false none) s]) :
    t ∈ allTransitionsF [s] := by
  cases s with
  | mk n ea xa ts ch fi it =>
    simp [pushChild, allTransitionsF, allTransitionsF_append] at ht ⊢
    tauto

/-- `findOrCreateState` keeps every existing name. -/
theorem mem_forestNames_findOrCreateState (ss : List State)
    (stack : List String) (name x : String) (hx : x ∈ forestNames ss) :
    x ∈ forestNames (findOrCreateState ss stack name) := by
  rw [findOrCreateState]
  by_cases h : containsNameF name ss = true
  · rw [if_pos h]
    exact hx
  · rw [if_neg h]
    cases stack with
    | nil =>
      rw [forestNames_append]
      exact List.mem_append_left _ hx
    | cons top rest =>
      exact mem_forestNames_updateNamed top _
        (fun s x hx => mem_forestNames_pushChild _ s x hx) ss x hx

/-- After `findOrCreateState`, the requested name is in the tree — the
state is found, appended at the root, or attached to the top of the scope
stack (whose name must itself be in the tree). -/
theorem name_mem_findOrCreateState (ss : List State) (stack : List String)
    (name : String) (hstack : ∀ m ∈ stack, m ∈ forestNames ss) :
    name ∈ forestNames (findOrCreateState ss stack name) := by
  rw [findOrCreateState]
  by_cases h : containsNameF name ss = true
  · rw [if_pos h]
    exact (containsNameF_iff name ss).mp h
  · rw [if_neg h]
    cases stack with
    | nil =>
      rw [forestNames_append]
      refine List.mem_append_right _ ?g5
      simp [forestNames]
    | cons top rest =>
      have htop : containsNameF top ss = true :=
        (containsNameF_iff top ss).mpr (hstack top (by simp))
      exact mem_forestNames_updateNamed_self top
        (pushChild (State.mk name [] [] [] [] false none)) name
        (fun s =>
          name_mem_forestNames_pushChild (State.mk name [] [] [] [] false none) s)
        ss htop

/-- `findOrCreateState` adds no transitions (the created state is empty). -/
theorem mem_allTransitionsF_findOrCreateState (ss : List State)
    (stack : List String) (name : String) (t : Transition)
    (ht : t ∈ allTransitionsF (findOrCreateState ss stack name)) :
    t ∈ allTransitionsF ss := by
  rw [findOrCreateState] at ht
  by_cases h : containsNameF name ss = true
  · rwa [if_pos h] at ht
  · rw [if_neg h] at ht
    cases stack with
    | nil =>
      rw [allTransitionsF_append] at ht
      rcases List.mem_append.mp ht with h2 | h2
      · exact h2
      · simp [allTransitionsF] at h2
    | cons top rest =>
      rcases mem_allTransitionsF_updateNamed top _ (fun _ => False)
        (fun s t h2 => Or.inl (mem_allTransitionsF_pushChild_new name s t h2))
        ss t ht with h2 | h2
      · exact h2
      · exact h2.elim

/-- The parser's running invariant: every recorded transition targets an
existing state name, and every stacked scope name is in the tree. -/
def GoodState (st : QpParseState) : Prop :=
  (∀ t ∈ allTransitionsF st.sm.states, t.target ∈ forestNames st.sm.states)
  ∧ (∀ n ∈ st.stateStack, n ∈ forestNames st.sm.states)

theorem goodState_update_preserving (st : QpParseState) (n : String)
    (f : State → State)
    (hn : ∀ s, forestNames [f s] = forestNames [s])
    (htr : ∀ s, allTransitionsF [f s] = allTransitionsF [s])
    (h : GoodState st) :
    GoodState { st with
      sm := { st.sm with states := updateNamed n f st.sm.states } } := by
  obtain ⟨h1, h2⟩ := h
  have hmono : ∀ (x : String), x ∈ forestNames st.sm.states →
      x ∈ forestNames (updateNamed n f st.sm.states) :=
    fun x hx => mem_forestNames_updateNamed n f
      (fun s x hx => by rw [hn s]; exact hx) _ x hx
  constructor
  · intro t ht
    rcases mem_allTransitionsF_updateNamed n f (fun _ => False)
        (fun s t h3 => Or.inl (by rw [htr s] at h3; exact h3))
        st.sm.states t ht with h3 | h3
    · exact hmono _ (h1 t h3)
    · exact h3.elim
  · intro m hm
    exact hmono m (h2 m hm)

theorem goodState_update_pushTransition (st : QpParseState) (n : String)
    (tr : Transition) (h : GoodState st)
    (htarget : tr.target ∈ forestNames st.sm.states) :
    GoodState { st with
      sm := { st.sm with
        states := updateNamed n (pushTransition tr) st.sm.states } } := by
  obtain ⟨h1, h2⟩ := h
  have hmono : ∀ (x : String), x ∈ forestNames st.sm.states →
      x ∈ forestNames (updateNamed n (pushTransition tr) st.sm.states) :=
    fun x hx => mem_forestNames_updateNamed n _
      (fun s x hx => by rw [forestNames_pushTransition tr s]; exact hx)
      _ x hx
  constructor
  · intro t ht
    rcases mem_allTransitionsF_updateNamed n _ (fun t => t = tr)
        (fun s t h3 => mem_allTransitionsF_pushTransition tr s t h3)
        st.sm.states t ht with h3 | h3
    · exact hmono _ (h1 t h3)
    · subst h3
      exact hmono _ htarget
  · intro m hm
    exact hmono m (h2 m hm)

theorem goodState_stateOpen (st : QpParseState) (nm : String)
    (h : GoodState st) :
    GoodState { st with
      sm := { st.sm with
        states := findOrCreateState st.sm.states st.stateStack nm },
      stateStack := nm :: st.stateStack } := by
  obtain ⟨h1, h2⟩ := h
  constructor
  · intro t ht
    have ht0 := mem_allTransitionsF_findOrCreateState _ _ _ t ht
    exact mem_forestNames_findOrCreateState _ _ _ _ (h1 t ht0)
  · intro m hm
    rcases List.mem_cons.mp hm with rfl | hm
    · exact name_mem_findOrCreateState _ _ _ (fun x hx => h2 x hx)
    · exact mem_forestNames_findOrCreateState _ _ _ _ (h2 m hm)

theorem goodState_after_creates (st : QpParseState) (src tgt : String)
    (tr : Transition) (htr : tr.target = tgt) (h : GoodState st) :
    GoodState { st with
      sm := { st.sm with
        states := updateNamed src (pushTransition tr)
          (findOrCreateState
            (findOrCreateState st.sm.states st.stateStack src)
            st.stateStack tgt) } } := by
  obtain ⟨h1, h2⟩ := h
  have hstack1 : ∀ m ∈ st.stateStack,
      m ∈ forestNames (findOrCreateState st.sm.states st.stateStack src) :=
    fun m hm => mem_forestNames_findOrCreateState _ _ _ _ (h2 m hm)
  have hst2 : GoodState { st with
      sm := { st.sm with
        states := findOrCreateState
          (findOrCreateState st.sm.states st.stateStack src)
          st.stateStack tgt } } := by
    constructor
    · intro t ht
      have ht1 := mem_allTransitionsF_findOrCreateState _ _ _ t ht
      have ht0 := mem_allTransitionsF_findOrCreateState _ _ _ t ht1
      exact mem_forestNames_findOrCreateState _ _ _ _
        (mem_forestNames_findOrCreateState _ _ _ _ (h1 t ht0))
    · intro m hm
      exact mem_forestNames_findOrCreateState _ _ _ _ (hstack1 m hm)
  have htgt : tr.target ∈ forestNames
      (findOrCreateState
        (findOrCreateState st.sm.states st.stateStack src)
        st.stateStack tgt) := by
    rw [htr]
    exact name_mem_findOrCreateState _ _ _ hstack1
  exact goodState_update_pushTransition _ src tr hst2 htgt

theorem goodState_parseTransitionLine (st : QpParseState) (line : String)
    (h : GoodState st) : GoodState (parseTransitionLine st line) := by
  rw [parseTransitionLine]
  cases hm : parseTransMatch line with
  | none => exact h
  | some q =>
    obtain ⟨src, tgt, ev, act, gd⟩ := q
    exact goodState_after_creates st src tgt _ rfl h

theorem goodState_parseLine (st : QpParseState) (line : String)
    (h : GoodState st) : GoodState (parseLine st line) := by
  simp only [parseLine]
  split
  · split
    · exact h
    · exact h
  · split
    · split
      · rename_i nm heq
        exact goodState_stateOpen st nm h
      · exact h
    · split
      · exact ⟨h.1, fun m hm => h.2 m (List.mem_of_mem_tail hm)⟩
      · split
        · split
          · exact goodState_update_preserving st _ _
              (fun s => forestNames_pushEntry _ s)
              (fun s => allTransitionsF_pushEntry _ s) h
          · exact h
        · split
          · split
            · exact goodState_update_preserving st _ _
                (fun s => forestNames_pushExit _ s)
                (fun s => allTransitionsF_pushExit _ s) h
            · exact h
          · split
            · exact goodState_parseTransitionLine st line h
            · split
              · split
                · split
                  · rename_i ia htop top rest heq
                    refine goodState_update_pushTransition st top _ h ?g6
                    exact h.2 top (by rw [heq]; exact List.mem_cons_self top rest)
                  · exact h
                · exact h
              · exact h

theorem parseMetadataLine_states (sm : StateMachine) (line : String) :
    (parseMetadataLine sm line).states = sm.states := by
  rw [parseMetadataLine]
  split
  · rfl
  · split
    · rfl
    · split
      · rfl
      · rfl

theorem parseMetadata_states (sm : StateMachine) (content : String) :
    (parseMetadata sm content).states = sm.states := by
  rw [parseMetadata]
  generalize splitLines content = ls
  induction ls generalizing sm with
  | nil => rfl
  | cons l ls ih => rw [List.foldl_cons, ih, parseMetadataLine_states]

theorem goodState_parseStep (st : QpParseState) (line : String)
    (h : GoodState st) : GoodState (parseStep st line) := by
  simp only [parseStep]
  split
  · exact h
  · split
    · exact h
    · split
      · obtain ⟨h1, h2⟩ := h
        constructor
        · intro t ht
          have ht2 : t ∈ allTransitionsF
              (parseMetadata st.sm st.metadataContent).states := ht
          rw [parseMetadata_states] at ht2
          show t.target ∈ forestNames
            (parseMetadata st.sm st.metadataContent).states
          rw [parseMetadata_states]
          exact h1 t ht2
        · intro m hm
          show m ∈ forestNames (parseMetadata st.sm st.metadataContent).states
          rw [parseMetadata_states]
          exact h2 m hm
      · split
        · exact h
        · split
          · exact h
          · split
            · exact h
            · exact goodState_parseLine st _ h

theorem goodState_foldl : ∀ (ls : List String) (st : QpParseState),
    GoodState st → GoodState (ls.foldl parseStep st)
  | [], st, h => h
  | l :: ls, st, h => goodState_foldl ls _ (goodState_parseStep st l h)

theorem forestNames_setupHierList (roots : List State) : ∀ (ss : List State),
    forestNames (setupHierList roots ss) = forestNames ss
  | [] => by simp [setupHierList, forestNames]
  | .mk n ea xa ts ch fi it :: ss => by
    simp only [setupHierList]
    simp [forestNames, forestNames_setupHierList roots ch,
      forestNames_setupHierList roots ss]

theorem allTransitionsF_setupHierList (roots : List State) :
    ∀ (ss : List State),
      allTransitionsF (setupHierList roots ss) = allTransitionsF ss
  | [] => by simp [setupHierList, allTransitionsF]
  | .mk n ea xa ts ch fi it :: ss => by
    simp only [setupHierList]
    simp [allTransitionsF, allTransitionsF_setupHierList roots ch,
      allTransitionsF_setupHierList roots ss]

/-- C9 (amended, first half of the claim): after `QpMermaidParser.parse`,
every transition of the produced machine targets a name that exists in the
model's state tree — arrow lines create both endpoint states on demand and
internal lines target their owning state.  (The claim's final consequence,
that the validator's missing-target error can then never fire, does not
follow and is refuted separately: the validator resolves targets only
against the sibling forest of the owning state, not the whole tree.) -/
theorem claim_C9_targets_exist (content : String) :
    ∀ t ∈ allTransitionsF (qpParse content).states,
      t.target ∈ forestNames (qpParse content).states := by
  intro t ht
  have hg : GoodState ((splitLines content).foldl parseStep qpInit) := by
    refine goodState_foldl _ _ ⟨?g7, ?g8⟩
    · intro t ht
      simp [qpInit, qpInitSm, allTransitionsF] at ht
    · intro m hm
      simp [qpInit] at hm
  have hst : (qpParse content).states
      = setupHierList ((splitLines content).foldl parseStep qpInit).sm.states
          ((splitLines content).foldl parseStep qpInit).sm.states := rfl
  rw [hst, allTransitionsF_setupHierList] at ht
  rw [hst, forestNames_setupHierList]
  exact hg.1 t ht

def exC9ok : String := "stateDiagram-v2\nA --> B"

theorem claim_C9_targets_exist_witness :
    (({ event := "", target := "B" } : Transition)
        ∈ allTransitionsF (qpParse exC9ok).states)
    ∧ "B" ∈ forestNames (qpParse exC9ok).states :=
  ⟨by
    simp +decide [exC9ok, qpParse, qpInit, qpInitSm, splitLines, splitCharList,
      parseStep, parseLine, parseTransitionLine, parseTransMatch,
      parseTransMatchAt, pTransTailEvent, pActionOpt, pGuardOpt, scanMatch,
      jsTrim, jsStartsWith, jsIncludes, listInfix, strDrop, initialMatch,
      initialMatchAt, stateDeclMatch, stateDeclMatchAt, pInternalMatch,
      pInternalMatchAt, findOrCreateState, containsNameF, updateNamed,
      pushChild, pushTransition, setupHierarchy, setupHierList,
      hierInitTarget, rootsHaveInitFor, isSpaceChar, isWordChar,
      allTransitionsF, forestNames],
   claim_C9_targets_exist exC9ok
     { event := "", target := "B" } (by
    simp +decide [exC9ok, qpParse, qpInit, qpInitSm, splitLines, splitCharList,
      parseStep, parseLine, parseTransitionLine, parseTransMatch,
      parseTransMatchAt, pTransTailEvent, pActionOpt, pGuardOpt, scanMatch,
      jsTrim, jsStartsWith, jsIncludes, listInfix, strDrop, initialMatch,
      initialMatchAt, stateDeclMatch, stateDeclMatchAt, pInternalMatch,
      pInternalMatchAt, findOrCreateState, containsNameF, updateNamed,
      pushChild, pushTransition, setupHierarchy, setupHierList,
      hierInitTarget, rootsHaveInitFor, isSpaceChar, isWordChar,
      allTransitionsF, forestNames])⟩

def exC9 : String := "stateDiagram-v2\nB --> D\nstate A \x7b\nC --> B\n\x7d"

/-- C9 counterexample: a machine freshly produced by
`QpMermaidParser.parse` CAN trigger the validator's missing-target error.
Parsing creates root states `B`, `D` and composite `A` with child `C`, and
`C`'s transition targets the root state `B`; yet
`validateStateTransitions` looks the target up only in the sibling forest
of the owning state (`findState(transition.target, states)` with `states`
the current level), so the nested `C --> B` is reported as
`Transition target 'B' does not exist` even though `B` exists in the
tree.  This refutes the claim's consequence clause. -/
theorem claim_C9_counterexample :
    validateStateTransitionsF (qpParse exC9).states "" =
      [{ severity := .error,
         message := "Transition target " ++ qc ++ "B" ++ qc
           ++ " does not exist",
         location := some { state := some "A.C", transition := some "" } }] := by
  simp +decide [exC9, qpParse, qpInit, qpInitSm, splitLines, splitCharList,
    parseStep, parseLine, parseTransitionLine, parseTransMatch,
    parseTransMatchAt, pTransTailEvent, pActionOpt, pGuardOpt, scanMatch,
    jsTrim, jsStartsWith, jsIncludes, listInfix, strDrop, initialMatch,
    initialMatchAt, stateDeclMatch, stateDeclMatchAt, pInternalMatch,
    pInternalMatchAt, findOrCreateState, containsNameF, updateNamed,
    pushChild, pushTransition, setupHierarchy, setupHierList,
    hierInitTarget, rootsHaveInitFor, isSpaceChar, isWordChar,
    validateStateTransitionsF, vstLoop, stateOwnErrs, transitionErrsAt,
    isSpecialTarget, findState, childPath, validateGuard, qc]

end Qp

